import Mathlib

/-
Verification of the lazyr core (src/core.py): a lazy resource activation
proxy over the process-wide module registry `sys.modules`.

Shallow embedding notes:
* A dotted module name is represented by its nonempty list of
  dot-separated segments (`ModName`).  String-level operations of the
  source are mirrored segment-wise: `rpartition(".")` becomes
  `dropLast` / `getLast`, `_get_family` becomes the list of prefixes,
  and an f-string `f"{name}.{attr}"` becomes `name ++ splitSegs attr`.
* `sys.modules` is an insertion-ordered association list (`dictGet`,
  `dictSet`, `dictDel` mirror Python dict primitives, including the
  position-preserving update of an existing key).
* `LazyModule` objects are mutable and aliased (they live in
  `sys.modules` while lazy, and user code holds references to them), so
  they are stored in an explicit heap; a handle is a heap index.
* `importlib.import_module` is the external Loader, modelled by
  `Env.loader`; a successful import inserts the real module into
  `sys.modules` as the import machinery does, a failure raises
  `ModuleNotFoundError` (here: `Env.loader` returns `none`) and inserts
  nothing.  Every Loader invocation is recorded in `St.trace`.
* Exceptions carry the state at raise time (`PyResult.exn`), because in
  Python the `sys.modules` mutations performed before the raise persist.
* `register` / `LazyModule.__init__` / `LazyModule.__ignore` are
  mutually recursive through the registry; the recursion terminates in
  Python because `sys.modules[name] = None` is published before the
  recursive calls.  The embedding makes the functions total with a fuel
  parameter; `none` means the fuel ran out, never a behaviour of the
  source.
* `register`'s `package` argument and `__join_module_name` (relative
  name resolution via frame inspection) are host-specific glue and are
  resolved before the entry point modelled here: `registerF` receives
  the already-absolute name.  The `verbose=None` default resolves to the
  module global `VERBOSE` before this point as well, so `registerF`
  takes the effective verbosity.
* CPython module objects are always truthy; the `if not self.__module`
  tests of the source are mirrored by `Entry.isTruthy`, with the Python
  `None` represented by `Entry.marker`.
-/

/-- A dotted module name, as its list of dot-separated segments. -/
abbrev ModName := List String

/-- An abstract concrete value (a real module object or attribute value). -/
abbrev Val := Nat

/-- The dot separator used by the source's string manipulations. -/
def dotSep : String := "."

/-- The dot character. -/
def dotChar : Char := Char.ofNat 46

/-- Worker for `splitSegs`: split a character list on dots, keeping
empty pieces, with `acc` holding the current piece reversed. -/
def splitSegsAux : List Char → List Char → List String
  | [], acc => [String.mk acc.reverse]
  | c :: rest, acc =>
      if c = dotChar then String.mk acc.reverse :: splitSegsAux rest []
      else splitSegsAux rest (c :: acc)

/-- Split a raw string on dots, mirroring Python `s.split(".")` (every
dot splits; empty pieces are kept). -/
def splitSegs (s : String) : List String := splitSegsAux s.data []

/-- Mirror of Python `s.partition(".")[0]`: everything before the first dot. -/
def partitionHead (s : String) : String := (splitSegs s).headD ""

/-- A Python object as it occurs in `sys.modules` and in attribute
positions of the core: `marker` is Python `None` (placed by
`LazyModule.__init__` before registration completes), `lazy r` is a
`LazyModule` proxy living at heap index `r`, `real v` is a genuine
loaded module / value. -/
inductive Entry where
  | marker : Entry
  | lazy (ref : Nat) : Entry
  | real (v : Val) : Entry
deriving DecidableEq, Repr

/-- Python truthiness of the objects the core tests with `if not ...`:
`None` is falsy; proxies and (module) values are truthy. -/
def Entry.isTruthy : Entry → Bool
  | .marker => false
  | _ => true

/-- The mutable state of a `LazyModule` object (core.py:157).
`module` is the `_LazyModule__module` field (`marker` = Python `None` =
still unresolved); `logger` records whether `_LazyModule__logger` has
been initialised. -/
structure LazyModule where
  name : ModName
  ignored_attrs : List String
  verbose : Nat
  module : Entry
  logger : Bool
deriving DecidableEq, Repr

/-- The global mutable state: `sys.modules` (insertion-ordered), the
heap of `LazyModule` objects, and the trace of Loader invocations
(`importlib.import_module` calls), in order. -/
structure St where
  modules : List (ModName × Entry)
  heap : List LazyModule
  trace : List ModName
deriving DecidableEq, Repr

/-- The environment: the external Loader and the attribute structure of
real values.  `loader n = none` models `ModuleNotFoundError`;
`attr v a = none` models `AttributeError`; `reprVal` is `repr()` on a
real value. -/
structure Env where
  loader : ModName → Option Val
  attr : Val → String → Option Val
  reprVal : Val → String

/-- Python dict lookup `d[k]` (first occurrence; keys are unique in any
reachable state). -/
def dictGet : List (ModName × Entry) → ModName → Option Entry
  | [], _ => none
  | (k0, v0) :: rest, k => if k = k0 then some v0 else dictGet rest k

/-- Python dict assignment `d[k] = v`: update in place if the key
exists (keeping its position), else append. -/
def dictSet : List (ModName × Entry) → ModName → Entry → List (ModName × Entry)
  | [], k, v => [(k, v)]
  | (k0, v0) :: rest, k, v =>
      if k0 = k then (k0, v) :: rest else (k0, v0) :: dictSet rest k v

/-- Python `del d[k]`. -/
def dictDel : List (ModName × Entry) → ModName → List (ModName × Entry)
  | [], _ => []
  | (k0, v0) :: rest, k =>
      if k0 = k then dictDel rest k else (k0, v0) :: dictDel rest k

/-- `_get_family` (core.py:281): the prefixes of a dotted name, from the
root to the full name. -/
def getFamily (name : ModName) : List ModName :=
  (List.range name.length).map (fun i => name.take (i + 1))

/-- `LazyModule.__set_verbose` (core.py:239): overwrite the verbosity
and initialise the shared logger on first use at verbosity at least 1. -/
def setVerbose (ref : Nat) (verbose : Nat) (s : St) : St :=
  match s.heap[ref]? with
  | none => s
  | some lm =>
      if 1 ≤ verbose ∧ lm.logger = false then
        { s with heap := s.heap.set ref { lm with verbose := verbose, logger := true } }
      else
        { s with heap := s.heap.set ref { lm with verbose := verbose } }

mutual

/-- `register` (core.py:23), entered with the absolute module name (see
the header notes on `__join_module_name` and the `verbose` default).
Creates a `LazyModule` when the name has no entry, merges `ignore` and
sets the verbosity when the entry is still a `LazyModule`, and returns
the existing entry unchanged otherwise. -/
def registerF : Nat → ModName → Option (List String) → Nat → St → Option (St × Entry)
  | 0, _, _, _, _ => none
  | fuel + 1, name, ignore, verbose, s =>
    match dictGet s.modules name with
    | none =>
        match initF fuel name ignore verbose s with
        | none => none
        | some (s1, ref) =>
            let s2 : St := { s1 with modules := dictSet s1.modules name (.lazy ref) }
            some (s2, .lazy ref)
    | some (.lazy ref) =>
        match ignoreF fuel ref ignore s with
        | none => none
        | some s1 =>
            let s2 := setVerbose ref verbose s1
            match dictGet s2.modules name with
            | none => none
            | some e => some (s2, e)
    | some e => some (s, e)
  termination_by structural fuel _ _ _ _ => fuel

/-- `LazyModule.__init__` (core.py:169): publish the `None` marker in
`sys.modules`, allocate the object, set verbosity, apply the ignore
list, then recursively register the parent with this object's leaf
segment ignored.  Returns the new object's heap index; the caller
(`registerF`) stores it into `sys.modules`. -/
def initF : Nat → ModName → Option (List String) → Nat → St → Option (St × Nat)
  | 0, _, _, _, _ => none
  | fuel + 1, name, ignore, verbose, s =>
    let s1 : St := { s with modules := dictSet s.modules name .marker }
    let ref := s1.heap.length
    let s2 : St := { s1 with
      heap := s1.heap ++ [{ name := name, ignored_attrs := [], verbose := 0,
                            module := .marker, logger := false }] }
    let s3 := setVerbose ref verbose s2
    match ignoreF fuel ref ignore s3 with
    | none => none
    | some s4 =>
        if name.dropLast = [] then some (s4, ref)
        else
          match registerF fuel name.dropLast (some [name.getLastD ""]) verbose s4 with
          | none => none
          | some (s5, _) => some (s5, ref)
  termination_by structural fuel _ _ _ _ => fuel

/-- `LazyModule.__ignore` (core.py:220): `None` means no ignore list. -/
def ignoreF : Nat → Nat → Option (List String) → St → Option St
  | 0, _, _, _ => none
  | _ + 1, _, none, s => some s
  | fuel + 1, ref, some subs, s => ignoreListF fuel ref subs s
  termination_by structural fuel _ _ _ => fuel

/-- The loop body of `LazyModule.__ignore`: for each submodule not yet
in the ignore set, register the dotted child and record the submodule's
head segment. -/
def ignoreListF : Nat → Nat → List String → St → Option St
  | 0, _, _, _ => none
  | _ + 1, _, [], s => some s
  | fuel + 1, ref, sub :: rest, s =>
    match s.heap[ref]? with
    | none => none
    | some lm =>
        if sub ∈ lm.ignored_attrs then
          ignoreListF fuel ref rest s
        else
          match registerF fuel (lm.name ++ splitSegs sub) none lm.verbose s with
          | none => none
          | some (s1, _) =>
              match s1.heap[ref]? with
              | none => none
              | some lm1 =>
                  let lm2 :=
                    if partitionHead sub ∈ lm1.ignored_attrs then lm1
                    else { lm1 with ignored_attrs := lm1.ignored_attrs ++ [partitionHead sub] }
                  ignoreListF fuel ref rest { s1 with heap := s1.heap.set ref lm2 }

end

/-- The exceptions the core can raise. -/
inductive PyErr where
  | keyError (k : ModName) : PyErr
  | moduleNotFound (k : ModName) : PyErr
  | attributeError (obj : Entry) (a : String) : PyErr
  | badRef (r : Nat) : PyErr
  | reentrantProxy (r : Nat) (a : String) : PyErr
deriving DecidableEq, Repr

/-- The result of a stateful operation: a normal return or an exception.
Either way the state (with all mutations performed so far) is carried,
as Python's `sys.modules` mutations persist across a raise. -/
inductive PyResult (α : Type) where
  | ok (s : St) (v : α) : PyResult α
  | exn (s : St) (e : PyErr) : PyResult α
deriving DecidableEq, Repr

/-- Plain `getattr` on a non-proxy object.  `getattr` on `None` raises
`AttributeError`; `getattr` on a `LazyModule` would re-enter the proxy
(`reentrantProxy` marks that path, which no registered operation
reaches). -/
def pyGetattr (env : Env) (obj : Entry) (a : String) : Except PyErr Entry :=
  match obj with
  | .real v =>
      match env.attr v a with
      | some v1 => .ok (.real v1)
      | none => .error (.attributeError obj a)
  | .marker => .error (.attributeError obj a)
  | .lazy r => .error (.reentrantProxy r a)

/-- Worker for `_get_from_sys_module`, structurally recursive on a
depth bound; the wrapper passes the segment count, which the recursion
(one segment shorter per step) never exhausts, so the `0` case is the
empty-name base (where Python, with no parent left, raises
`ModuleNotFoundError`). -/
def getFromSysModuleF : Nat → Env → St → ModName → Except PyErr Entry
  | 0, _, _, name => .error (.moduleNotFound name)
  | depth + 1, env, s, name =>
      match dictGet s.modules name with
      | some e => .ok e
      | none =>
          if name.dropLast = [] then .error (.moduleNotFound name)
          else
            match getFromSysModuleF depth env s name.dropLast with
            | .error e => .error e
            | .ok parentObj => pyGetattr env parentObj (name.getLastD "")
  termination_by structural depth _ _ _ => depth

/-- `_get_from_sys_module` (core.py:288): fall back to looking a
failed import up in `sys.modules`, or as an attribute of its parent. -/
def getFromSysModule (env : Env) (s : St) (name : ModName) : Except PyErr Entry :=
  getFromSysModuleF name.length env s name

/-- The family loop of `LazyModule.__import_module` (core.py:227): walk
the prefixes root to leaf; a still-lazy entry is deleted and imported
through the Loader (recorded in the trace), with the
`_get_from_sys_module` fallback on `ModuleNotFoundError`; any other
entry is reused.  Returns the value of the loop variable `module` after
the last iteration. -/
def importFamilyLoop (env : Env) : List ModName → St → Entry → PyResult Entry
  | [], s, module => .ok s module
  | name :: rest, s, _ =>
    match dictGet s.modules name with
    | none => .exn s (.keyError name)
    | some m =>
        match m with
        | .lazy _ =>
            let s1 : St := { s with modules := dictDel s.modules name }
            let s2 : St := { s1 with trace := s1.trace ++ [name] }
            match env.loader name with
            | some v =>
                let s3 : St := { s2 with modules := dictSet s2.modules name (.real v) }
                importFamilyLoop env rest s3 (.real v)
            | none =>
                match getFromSysModule env s2 name with
                | .error e => .exn s2 e
                | .ok obj => importFamilyLoop env rest s2 obj
        | _ => importFamilyLoop env rest s m

/-- `LazyModule.__import_module` (core.py:227): run the family loop and
store the final `module` into the object's `__module` field. -/
def importModule (env : Env) (ref : Nat) (s : St) : PyResult Unit :=
  match s.heap[ref]? with
  | none => .exn s (.badRef ref)
  | some lm =>
      match importFamilyLoop env (getFamily lm.name) s .marker with
      | .exn s1 e => .exn s1 e
      | .ok s1 module =>
          match s1.heap[ref]? with
          | none => .exn s1 (.badRef ref)
          | some lm1 => .ok { s1 with heap := s1.heap.set ref { lm1 with module := module } } ()

/-- `wakeup` (core.py:94): force a `LazyModule` handle through
`__wakeup` (= `__import_module` followed by stateless logging); any
other object is left alone. -/
def wakeup (env : Env) (obj : Entry) (s : St) : PyResult Unit :=
  match obj with
  | .lazy ref => importModule env ref s
  | _ => .ok s ()

/-- Mirror of Python `s.startswith(p)`, by character-list comparison. -/
def charsLe : List Char → List Char → Bool
  | [], _ => true
  | _ :: _, [] => false
  | c :: cs, d :: ds => c = d && charsLe cs ds

/-- Python `attr.startswith(p)`. -/
def strStartsWith (s p : String) : Bool := charsLe p.data s.data

/-- `LazyModule.__skipped_attrs` (core.py:166). -/
def skipped_attrs : List String := ["__spec__", "__path__"]

/-- `LazyModule.__skipped_startswith` (core.py:167). -/
def skipped_startswith : List String := ["_ipython_", "_repr_"]

/-- The code-object name `sys._getframe(1).f_code.co_name` is compared
against in `LazyModule.__getattr__` (core.py:201): the import
machinery's internal frame. -/
def findAndLoadName : String := "_find_and_load_unlocked"

/-- The tail of `LazyModule.__getattr__` past the interception chain:
`self.__wakeup(__name)` followed by `return getattr(self.__module,
__name)`. -/
def wakeAndGet (env : Env) (ref : Nat) (attr : String) (s : St) : PyResult Entry :=
  match importModule env ref s with
  | .exn s1 e => .exn s1 e
  | .ok s1 _ =>
      match s1.heap[ref]? with
      | none => .exn s1 (.badRef ref)
      | some lm1 =>
          match pyGetattr env lm1.module attr with
          | .error e => .exn s1 e
          | .ok v => .ok s1 v

/-- `LazyModule.__getattr__` (core.py:197).  `callerName` models
`sys._getframe(1).f_code.co_name`, the immediate caller's code-object
name (Python invokes `__getattr__` only for names not found on the
instance or its class, which is the case for all the member names the
specification is about). -/
def getattrMethod (env : Env) (ref : Nat) (attr : String) (callerName : String)
    (s : St) : PyResult Entry :=
  match s.heap[ref]? with
  | none => .exn s (.badRef ref)
  | some lm =>
      if lm.module.isTruthy then
        match pyGetattr env lm.module attr with
        | .error e => .exn s e
        | .ok v => .ok s v
      else
        if attr ∈ skipped_attrs then
          if callerName = findAndLoadName then wakeAndGet env ref attr s
          else .ok s .marker
        else if skipped_startswith.any (fun p => strStartsWith attr p) then
          .ok s .marker
        else if attr ∈ lm.ignored_attrs then
          match dictGet s.modules (lm.name ++ splitSegs attr) with
          | some e => .ok s e
          | none => .exn s (.keyError (lm.name ++ splitSegs attr))
        else wakeAndGet env ref attr s

/-- `listall` (core.py:140): the freshly-built list of all
still-unresolved `LazyModule` entries of `sys.modules`, in registry
order (as heap indices). -/
def listall (s : St) : List Nat :=
  s.modules.filterMap (fun p =>
    match p.2 with
    | .lazy r =>
        match s.heap[r]? with
        | some lm => if lm.module.isTruthy then none else some r
        | none => none
    | _ => none)

/-- A single-quoted Python string literal, as `repr` renders it. -/
def pyStrLit (a : String) : String := "\x27" ++ a ++ "\x27"

/-- Python `repr` of a list of strings. -/
def pyListRepr (l : List String) : String :=
  "[" ++ String.intercalate ", " (l.map pyStrLit) ++ "]"

/-- `LazyModule.__repr__` (core.py:188): a resolved proxy delegates to
the module's own `repr`; an unresolved one renders its class name, its
dotted name and, when non-empty, its ignore set.  The function neither
consults the Loader nor touches any state.  (`none` only on an invalid
heap index, or for the unreachable aliasing case of a proxy stored as
another proxy's `__module`.) -/
def reprMethod (env : Env) (s : St) (ref : Nat) : Option String :=
  match s.heap[ref]? with
  | none => none
  | some lm =>
      if lm.module.isTruthy then
        match lm.module with
        | .real v => some (env.reprVal v)
        | _ => none
      else
        some ("LazyModule(" ++ String.intercalate dotSep lm.name ++
          (if lm.ignored_attrs = [] then "" else ", ignore=" ++ pyListRepr lm.ignored_attrs)
          ++ ")")

/-- Whether a registry object is a still-lazy proxy (the
`isinstance(m, LazyModule)` test of the source). -/
def isLazyEntry : Entry → Bool
  | .lazy _ => true
  | _ => false

/-- Whether `sys.modules` currently binds `n` to a still-lazy proxy:
the registry-level notion of an unresolved name. -/
def isLazyName (s : St) (n : ModName) : Bool :=
  match dictGet s.modules n with
  | some (.lazy _) => true
  | _ => false

/-- The state carried by a result, whether it returned or raised. -/
def PyResult.state : PyResult α → St
  | .ok s _ => s
  | .exn s _ => s

/-- The empty start state: a fresh interpreter with no registrations. -/
def emptySt : St := { modules := [], heap := [], trace := [] }

/-! Concrete environments and states used to exercise the definitions
on explicit inputs (reachable from `emptySt` through the registered
operations; the registration results are spelled out as literals). -/

/-- A loader environment: modules `a`, `a.b` and `x` import fine,
everything else (in particular `x.y`) fails; the value for `x` carries
an attribute `y`, and every value carries an attribute `w`. -/
def envA : Env :=
  { loader := fun n =>
      if n = ["a"] then some 10
      else if n = ["a", "b"] then some 11
      else if n = ["x"] then some 20
      else none
    attr := fun v a => if v = 20 ∧ a = "y" then some 21 else if a = "w" then some (v + 50) else none
    reprVal := fun v => toString v }

/-- A loader environment in which every import and attribute lookup fails. -/
def envNone : Env :=
  { loader := fun _ => none, attr := fun _ _ => none, reprVal := fun v => toString v }

/-- The `envNone` loader after being fixed so that module `x` imports. -/
def envX : Env :=
  { loader := fun n => if n = ["x"] then some 1 else none
    attr := fun _ _ => none
    reprVal := fun v => toString v }

/-- The state after `register("a.b")` on a fresh interpreter. -/
def stAB : St :=
  { modules := [(["a", "b"], .lazy 0), (["a"], .lazy 1)]
    heap := [{ name := ["a", "b"], ignored_attrs := [], verbose := 0, module := .marker, logger := false },
             { name := ["a"], ignored_attrs := ["b"], verbose := 0, module := .marker, logger := false }]
    trace := [] }

/-- `stAB` after waking the `a.b` handle up under `envA`. -/
def stABafter : St :=
  { modules := [(["a"], .real 10), (["a", "b"], .real 11)]
    heap := [{ name := ["a", "b"], ignored_attrs := [], verbose := 0, module := .real 11, logger := false },
             { name := ["a"], ignored_attrs := ["b"], verbose := 0, module := .marker, logger := false }]
    trace := [["a"], ["a", "b"]] }

/-- The state after `register("a", ignore=["__spec__"])` on a fresh interpreter. -/
def stSpec : St :=
  { modules := [(["a"], .lazy 0), (["a", "__spec__"], .lazy 1)]
    heap := [{ name := ["a"], ignored_attrs := ["__spec__"], verbose := 0, module := .marker, logger := false },
             { name := ["a", "__spec__"], ignored_attrs := [], verbose := 0, module := .marker, logger := false }]
    trace := [] }

/-- The state after `register("a", ignore=["b"])` on a fresh interpreter. -/
def stIgn : St :=
  { modules := [(["a"], .lazy 0), (["a", "b"], .lazy 1)]
    heap := [{ name := ["a"], ignored_attrs := ["b"], verbose := 0, module := .marker, logger := false },
             { name := ["a", "b"], ignored_attrs := [], verbose := 0, module := .marker, logger := false }]
    trace := [] }

/-- The state after `register("x")` on a fresh interpreter. -/
def stX : St :=
  { modules := [(["x"], .lazy 0)]
    heap := [{ name := ["x"], ignored_attrs := [], verbose := 0, module := .marker, logger := false }]
    trace := [] }

/-- `stX` after an attribute access under `envNone` made the Loader fail:
the Loader was invoked for `x`, and the registry entry for `x` is gone. -/
def stXfail : St :=
  { modules := []
    heap := [{ name := ["x"], ignored_attrs := [], verbose := 0, module := .marker, logger := false }]
    trace := [["x"]] }

/-- The state after `register("x.y")` on a fresh interpreter. -/
def stXY : St :=
  { modules := [(["x", "y"], .lazy 0), (["x"], .lazy 1)]
    heap := [{ name := ["x", "y"], ignored_attrs := [], verbose := 0, module := .marker, logger := false },
             { name := ["x"], ignored_attrs := ["y"], verbose := 0, module := .marker, logger := false }]
    trace := [] }

/-- `stXY` after waking the `x.y` handle up under `envA`: `x` imported,
`x.y` failed to import and was resolved through the attribute fallback,
leaving no `x.y` registry entry behind. -/
def stXYafter : St :=
  { modules := [(["x"], .real 20)]
    heap := [{ name := ["x", "y"], ignored_attrs := [], verbose := 0, module := .real 21, logger := false },
             { name := ["x"], ignored_attrs := ["y"], verbose := 0, module := .marker, logger := false }]
    trace := [["x"], ["x", "y"]] }

/-- The state after `register("a")` on a fresh interpreter. -/
def stA : St :=
  { modules := [(["a"], .lazy 0)]
    heap := [{ name := ["a"], ignored_attrs := [], verbose := 0, module := .marker, logger := false }]
    trace := [] }

/-- `stA` after waking the `a` handle up under `envA`. -/
def stARes : St :=
  { modules := [(["a"], .real 10)]
    heap := [{ name := ["a"], ignored_attrs := [], verbose := 0, module := .real 10, logger := false }]
    trace := [["a"]] }

/-- The state after `register("a", verbose=3)` on a fresh interpreter. -/
def stA3 : St :=
  { modules := [(["a"], .lazy 0)]
    heap := [{ name := ["a"], ignored_attrs := [], verbose := 3, module := .marker, logger := true }]
    trace := [] }

/-- The state relation established by every registration-family call:
the Loader trace is untouched (registration never imports), the heap
only grows, and every existing `LazyModule` object keeps its name and
its (un)resolved status while its ignore set only grows. -/
def RegRel (s s' : St) : Prop :=
  s'.trace = s.trace ∧
  s.heap.length ≤ s'.heap.length ∧
  (∀ (r : Nat) (lm : LazyModule), s.heap[r]? = some lm → ∃ lm' : LazyModule, s'.heap[r]? = some lm' ∧
    lm'.name = lm.name ∧ lm'.module = lm.module ∧
    (∀ a ∈ lm.ignored_attrs, a ∈ lm'.ignored_attrs))

/-- Registry entries that are still-lazy proxies survive registration
calls untouched. -/
def LazyPres (s s' : St) : Prop :=
  ∀ k r, dictGet s.modules k = some (.lazy r) → dictGet s'.modules k = some (.lazy r)


/-! General list helpers. -/

theorem list_set_self {α : Type} (l : List α) (n : Nat) (a : α) (h : l[n]? = some a) :
    l.set n a = l := by
  induction l generalizing n with
  | nil => simp at h
  | cons x xs ih =>
      cases n with
      | zero => simp_all
      | succ m =>
          simp only [List.getElem?_cons_succ] at h
          simp only [List.set]
          rw [ih m h]

theorem dropLast_concat_getLastD {α : Type} (l : List α) (d : α) (h : l ≠ []) :
    l.dropLast ++ [l.getLastD d] = l := by
  rw [List.getLastD_eq_getLast? d l, List.getLast?_eq_getLast l h]
  exact List.dropLast_append_getLast h

theorem dropLast_getD {α : Type} (l : List α) (i : Nat) (d : α) (h : i + 1 < l.length) :
    l.dropLast.getD i d = l.getD i d := by
  rw [List.getD_eq_getElem?_getD, List.getD_eq_getElem?_getD, List.dropLast_eq_take,
    List.getElem?_take_of_lt (by omega)]

theorem dropLast_take {α : Type} (l : List α) (j : Nat) (h : j ≤ l.length - 1) :
    l.dropLast.take j = l.take j := by
  rw [List.dropLast_eq_take, List.take_take]
  congr 1
  omega

theorem getD_last_eq_getLastD {α : Type} (l : List α) (d : α) :
    l.getD (l.length - 1) d = l.getLastD d := by
  rw [List.getD_eq_getElem?_getD, List.getLastD_eq_getLast? d l, List.getLast?_eq_getElem? l]

/-! Dict lemmas. -/

theorem dictGet_dictSet (m : List (ModName × Entry)) (k k' : ModName) (v : Entry) :
    dictGet (dictSet m k v) k' = if k' = k then some v else dictGet m k' := by
  induction m with
  | nil => by_cases h : k' = k <;> simp [dictSet, dictGet, h]
  | cons p rest ih =>
      obtain ⟨k0, v0⟩ := p
      by_cases h0 : k0 = k
      · subst h0
        by_cases h : k' = k0 <;> simp [dictSet, dictGet, h]
      · by_cases h : k' = k0
        · subst h
          simp [dictSet, dictGet, h0, Ne.symm h0]
        · simp [dictSet, dictGet, h0, h, ih]

theorem dictGet_dictDel (m : List (ModName × Entry)) (k k' : ModName) :
    dictGet (dictDel m k) k' = if k' = k then none else dictGet m k' := by
  induction m with
  | nil => by_cases h : k' = k <;> simp [dictDel, dictGet, h]
  | cons p rest ih =>
      obtain ⟨k0, v0⟩ := p
      by_cases h0 : k0 = k
      · subst h0
        by_cases h : k' = k0
        · subst h
          simp [dictDel, ih]
        · simp [dictDel, dictGet, h, ih]
      · by_cases h : k' = k0
        · subst h
          simp [dictDel, dictGet, h0, Ne.symm h0]
        · simp [dictDel, dictGet, h0, h, ih]

/-! Family lemmas. -/

theorem mem_getFamily {p name : ModName} :
    p ∈ getFamily name ↔ ∃ i, i < name.length ∧ p = name.take (i + 1) := by
  simp only [getFamily, List.mem_map, List.mem_range]
  constructor
  · rintro ⟨i, hi, rfl⟩
    exact ⟨i, hi, rfl⟩
  · rintro ⟨i, hi, rfl⟩
    exact ⟨i, hi, rfl⟩

theorem getFamily_nodup (name : ModName) : (getFamily name).Nodup := by
  apply List.Nodup.map_on _ (List.nodup_range name.length)
  intro i hi j hj hij
  have hlen := congrArg List.length hij
  simp only [List.length_take] at hlen
  simp only [List.mem_range] at hi hj
  omega

theorem self_mem_getFamily {name : ModName} (h : name ≠ []) : name ∈ getFamily name := by
  rw [mem_getFamily]
  refine ⟨name.length - 1, ?_, ?_⟩
  · have : 0 < name.length := List.length_pos.mpr h
    omega
  · have : 0 < name.length := List.length_pos.mpr h
    rw [show name.length - 1 + 1 = name.length by omega, List.take_length]

theorem getFamily_getLast? {name : ModName} (h : name ≠ []) :
    (getFamily name).getLast? = some name := by
  have hpos : 0 < name.length := List.length_pos.mpr h
  obtain ⟨k, hk⟩ : ∃ k, name.length = k + 1 := ⟨name.length - 1, by omega⟩
  unfold getFamily
  rw [hk, List.range_succ, List.map_append, List.map_cons, List.map_nil,
    List.getLast?_concat]
  rw [show k + 1 = name.length from hk.symm, List.take_length]

theorem getFamily_take {name : ModName} {i : Nat} (h : i < name.length) :
    name.take (i + 1) ∈ getFamily name := by
  rw [mem_getFamily]
  exact ⟨i, h, rfl⟩

/-! Step lemmas for the resolver's family loop. -/

theorem loop_cons_none {env : Env} {n : ModName} {rest : List ModName} {s : St} {m : Entry}
    (h : dictGet s.modules n = none) :
    importFamilyLoop env (n :: rest) s m = .exn s (.keyError n) := by
  simp [importFamilyLoop, h]

theorem loop_cons_other {env : Env} {n : ModName} {rest : List ModName} {s : St} {m e : Entry}
    (h : dictGet s.modules n = some e) (he : isLazyEntry e = false) :
    importFamilyLoop env (n :: rest) s m = importFamilyLoop env rest s e := by
  cases e <;> simp_all [importFamilyLoop, isLazyEntry]

theorem loop_cons_lazy_some {env : Env} {n : ModName} {rest : List ModName} {s : St}
    {m : Entry} {r : Nat} {v : Val}
    (h : dictGet s.modules n = some (.lazy r)) (hl : env.loader n = some v) :
    importFamilyLoop env (n :: rest) s m =
      importFamilyLoop env rest
        { modules := dictSet (dictDel s.modules n) n (.real v),
          heap := s.heap, trace := s.trace ++ [n] } (.real v) := by
  simp [importFamilyLoop, h, hl]

theorem loop_cons_lazy_fallback {env : Env} {n : ModName} {rest : List ModName} {s : St}
    {m : Entry} {r : Nat}
    (h : dictGet s.modules n = some (.lazy r)) (hl : env.loader n = none) :
    importFamilyLoop env (n :: rest) s m =
      (match getFromSysModule env
          { modules := dictDel s.modules n, heap := s.heap, trace := s.trace ++ [n] } n with
       | .error e =>
          .exn { modules := dictDel s.modules n, heap := s.heap, trace := s.trace ++ [n] } e
       | .ok obj =>
          importFamilyLoop env rest
            { modules := dictDel s.modules n, heap := s.heap, trace := s.trace ++ [n] } obj) := by
  simp [importFamilyLoop, h, hl]

/-! Frame and invariance lemmas for the family loop. -/

theorem loop_heap (env : Env) (ns : List ModName) (s : St) (m : Entry) :
    ((importFamilyLoop env ns s m).state).heap = s.heap := by
  induction ns generalizing s m with
  | nil => rfl
  | cons n rest ih =>
      cases hE : dictGet s.modules n with
      | none => rw [loop_cons_none hE]; rfl
      | some e =>
          cases e with
          | marker => rw [loop_cons_other hE rfl]; exact ih s _
          | real v => rw [loop_cons_other hE rfl]; exact ih s _
          | lazy r =>
              cases hl : env.loader n with
              | some v => rw [loop_cons_lazy_some hE hl]; exact ih _ _
              | none =>
                  rw [loop_cons_lazy_fallback hE hl]
                  split
                  · rfl
                  · exact ih _ _

theorem loop_frame (env : Env) (ns : List ModName) (s : St) (m : Entry) (k : ModName)
    (hk : k ∉ ns) :
    dictGet ((importFamilyLoop env ns s m).state).modules k = dictGet s.modules k := by
  induction ns generalizing s m with
  | nil => rfl
  | cons n rest ih =>
      rw [List.mem_cons] at hk
      push_neg at hk
      obtain ⟨hkn, hkrest⟩ := hk
      cases hE : dictGet s.modules n with
      | none => rw [loop_cons_none hE]; rfl
      | some e =>
          cases e with
          | marker => rw [loop_cons_other hE rfl]; exact ih s _ hkrest
          | real v => rw [loop_cons_other hE rfl]; exact ih s _ hkrest
          | lazy r =>
              cases hl : env.loader n with
              | some v =>
                  rw [loop_cons_lazy_some hE hl, ih _ _ hkrest]
                  simp [dictGet_dictSet, dictGet_dictDel, hkn]
              | none =>
                  rw [loop_cons_lazy_fallback hE hl]
                  split
                  · simp [PyResult.state, dictGet_dictDel, hkn]
                  · rw [ih _ _ hkrest]
                    simp [dictGet_dictDel, hkn]

theorem loop_real_persist (env : Env) (ns : List ModName) (s : St) (m : Entry)
    (k : ModName) (v : Val) (hkv : dictGet s.modules k = some (.real v)) :
    dictGet ((importFamilyLoop env ns s m).state).modules k = some (.real v) := by
  induction ns generalizing s m with
  | nil => exact hkv
  | cons n rest ih =>
      cases hE : dictGet s.modules n with
      | none => rw [loop_cons_none hE]; exact hkv
      | some e =>
          cases e with
          | marker => rw [loop_cons_other hE rfl]; exact ih s _ hkv
          | real v0 => rw [loop_cons_other hE rfl]; exact ih s _ hkv
          | lazy r =>
              have hkn : k ≠ n := by
                intro h
                rw [h, hE] at hkv
                exact absurd hkv (by simp)
              cases hl : env.loader n with
              | some v0 =>
                  rw [loop_cons_lazy_some hE hl]
                  apply ih
                  simp [dictGet_dictSet, dictGet_dictDel, hkn, hkv]
              | none =>
                  rw [loop_cons_lazy_fallback hE hl]
                  split
                  · simp [PyResult.state, dictGet_dictDel, hkn, hkv]
                  · apply ih
                    simp [dictGet_dictDel, hkn, hkv]

theorem loop_nonlazy_pres (env : Env) (ns : List ModName) (s : St) (m : Entry)
    (k : ModName) (hnl : isLazyName s k = false) :
    dictGet ((importFamilyLoop env ns s m).state).modules k = dictGet s.modules k := by
  induction ns generalizing s m with
  | nil => rfl
  | cons n rest ih =>
      cases hE : dictGet s.modules n with
      | none => rw [loop_cons_none hE]; rfl
      | some e =>
          cases e with
          | marker => rw [loop_cons_other hE rfl]; exact ih s _ hnl
          | real v => rw [loop_cons_other hE rfl]; exact ih s _ hnl
          | lazy r =>
              have hkn : k ≠ n := by
                intro h
                rw [isLazyName, h, hE] at hnl
                simp at hnl
              cases hl : env.loader n with
              | some v =>
                  have hget : dictGet (dictSet (dictDel s.modules n) n (Entry.real v)) k =
                      dictGet s.modules k := by
                    simp [dictGet_dictSet, dictGet_dictDel, hkn]
                  have hnl3 : isLazyName { modules := dictSet (dictDel s.modules n) n (Entry.real v), heap := s.heap, trace := s.trace ++ [n] : St } k = false := by
                    simpa [isLazyName, hget] using hnl
                  rw [loop_cons_lazy_some hE hl, ih _ _ hnl3]
                  exact hget
              | none =>
                  have hget : dictGet (dictDel s.modules n) k = dictGet s.modules k := by
                    simp [dictGet_dictDel, hkn]
                  have hnl3 : isLazyName { modules := dictDel s.modules n, heap := s.heap, trace := s.trace ++ [n] : St } k = false := by
                    simpa [isLazyName, hget] using hnl
                  rw [loop_cons_lazy_fallback hE hl]
                  split
                  · simpa [PyResult.state] using hget
                  · rw [ih _ _ hnl3]
                    exact hget

/-- Filtering for still-lazy names is unaffected by modifications to a
different key. -/
theorem filter_isLazyName_congr (s s' : St) (rest : List ModName)
    (h : ∀ x ∈ rest, dictGet s'.modules x = dictGet s.modules x) :
    rest.filter (fun x => isLazyName s' x) = rest.filter (fun x => isLazyName s x) := by
  apply List.filter_congr
  intro x hx
  rw [isLazyName, isLazyName, h x hx]

/-- The Loader-invocation trace written by the family loop: every run
appends a sublist of the still-lazy prefixes (in order); a successful
run appends exactly them; and every traced name ends up bound to the
Loader's result (present if the import succeeded, absent if it failed
and the attribute fallback was used). -/
theorem loop_trace (env : Env) (ns : List ModName) (s : St) (m : Entry)
    (hnd : ns.Nodup) :
    ∃ t, ((importFamilyLoop env ns s m).state).trace = s.trace ++ t ∧
      t.Sublist (ns.filter (fun x => isLazyName s x)) ∧
      (∀ s' mv, importFamilyLoop env ns s m = .ok s' mv →
        t = ns.filter (fun x => isLazyName s x)) ∧
      (∀ x ∈ t, dictGet ((importFamilyLoop env ns s m).state).modules x =
        (env.loader x).map Entry.real) := by
  induction ns generalizing s m with
  | nil =>
      refine ⟨[], by simp [importFamilyLoop, PyResult.state], List.nil_sublist _, ?_, by simp⟩
      intro s' mv h
      simp
  | cons n rest ih =>
      rw [List.nodup_cons] at hnd
      obtain ⟨hnrest, hndrest⟩ := hnd
      cases hE : dictGet s.modules n with
      | none =>
          refine ⟨[], by rw [loop_cons_none hE]; simp [PyResult.state], List.nil_sublist _, ?_, by simp⟩
          intro s' mv h
          rw [loop_cons_none hE] at h
          exact absurd h (by simp)
      | some e =>
          cases e with
          | marker =>
              have hfn : isLazyName s n = false := by simp [isLazyName, hE]
              obtain ⟨t, h1, h2, h3, h4⟩ := ih s Entry.marker hndrest
              rw [loop_cons_other hE rfl]
              exact ⟨t, h1, by simpa [List.filter_cons, hfn] using h2,
                by simpa [List.filter_cons, hfn] using h3, h4⟩
          | real v =>
              have hfn : isLazyName s n = false := by simp [isLazyName, hE]
              obtain ⟨t, h1, h2, h3, h4⟩ := ih s (Entry.real v) hndrest
              rw [loop_cons_other hE rfl]
              exact ⟨t, h1, by simpa [List.filter_cons, hfn] using h2,
                by simpa [List.filter_cons, hfn] using h3, h4⟩
          | lazy r =>
              have hfn : isLazyName s n = true := by simp [isLazyName, hE]
              cases hl : env.loader n with
              | some v =>
                  rw [loop_cons_lazy_some hE hl]
                  set s3 : St := { modules := dictSet (dictDel s.modules n) n (.real v), heap := s.heap, trace := s.trace ++ [n] } with hs3
                  obtain ⟨t, h1, h2, h3, h4⟩ := ih s3 (Entry.real v) hndrest
                  have hcongr : rest.filter (fun x => isLazyName s3 x) =
                      rest.filter (fun x => isLazyName s x) := by
                    apply filter_isLazyName_congr
                    intro x hx
                    have hxn : x ≠ n := fun h => hnrest (h ▸ hx)
                    simp [hs3, dictGet_dictSet, dictGet_dictDel, hxn]
                  refine ⟨n :: t, ?_, ?_, ?_, ?_⟩
                  · rw [h1]
                    simp [hs3]
                  · rw [List.filter_cons_of_pos (by simpa using hfn)]
                    exact (hcongr ▸ h2).cons₂ n
                  · intro s' mv h
                    rw [List.filter_cons_of_pos (by simpa using hfn)]
                    rw [h3 s' mv h, hcongr]
                  · intro x hx
                    rcases List.mem_cons.mp hx with rfl | hx'
                    · rw [loop_frame env rest s3 (Entry.real v) x hnrest]
                      simp [hs3, dictGet_dictSet, hl]
                    · exact h4 x hx'
              | none =>
                  rw [loop_cons_lazy_fallback hE hl]
                  set s2 : St := { modules := dictDel s.modules n, heap := s.heap, trace := s.trace ++ [n] } with hs2
                  cases hf : getFromSysModule env s2 n with
                  | error err =>
                      refine ⟨[n], by simp [PyResult.state, hs2], ?_, ?_, ?_⟩
                      · rw [List.filter_cons_of_pos (by simpa using hfn)]
                        exact (List.nil_sublist _).cons₂ n
                      · intro s' mv h
                        exact absurd h (by simp)
                      · intro x hx
                        rcases List.mem_cons.mp hx with rfl | hx'
                        · simp [PyResult.state, hs2, dictGet_dictDel, hl]
                        · simp at hx'
                  | ok obj =>
                      obtain ⟨t, h1, h2, h3, h4⟩ := ih s2 obj hndrest
                      have hcongr : rest.filter (fun x => isLazyName s2 x) =
                          rest.filter (fun x => isLazyName s x) := by
                        apply filter_isLazyName_congr
                        intro x hx
                        have hxn : x ≠ n := fun h => hnrest (h ▸ hx)
                        simp [hs2, dictGet_dictDel, hxn]
                      refine ⟨n :: t, ?_, ?_, ?_, ?_⟩
                      · rw [h1]
                        simp [hs2]
                      · rw [List.filter_cons_of_pos (by simpa using hfn)]
                        exact (hcongr ▸ h2).cons₂ n
                      · intro s' mv h
                        rw [List.filter_cons_of_pos (by simpa using hfn)]
                        rw [h3 s' mv h, hcongr]
                      · intro x hx
                        rcases List.mem_cons.mp hx with rfl | hx'
                        · rw [loop_frame env rest s2 obj x hnrest]
                          simp [hs2, dictGet_dictDel, hl]
                        · exact h4 x hx'

/-- On a successful run, the final value of the loop variable `module`
agrees with the final registry binding of the last family member (which
is absent exactly when that member was resolved through the attribute
fallback). -/
theorem loop_last_val (env : Env) (ns : List ModName) (s : St) (m : Entry)
    (hnd : ns.Nodup) (s' : St) (mv : Entry) (l : ModName)
    (hok : importFamilyLoop env ns s m = .ok s' mv) (hlast : ns.getLast? = some l) :
    dictGet s'.modules l = some mv ∨ dictGet s'.modules l = none := by
  induction ns generalizing s m with
  | nil => simp at hlast
  | cons n rest ih =>
      rw [List.nodup_cons] at hnd
      obtain ⟨hnrest, hndrest⟩ := hnd
      have hstate : ∀ s0 : St, importFamilyLoop env rest s0 m = .ok s' mv →
          (importFamilyLoop env rest s0 m).state = s' := by
        intro s0 h
        rw [h]
        rfl
      cases hrest : rest with
      | nil =>
          simp only [hrest, List.getLast?_singleton] at hlast
          cases hlast
          cases hE : dictGet s.modules l with
          | none => rw [loop_cons_none hE] at hok; exact absurd hok (by simp)
          | some e =>
              cases e with
              | marker =>
                  rw [loop_cons_other hE rfl, hrest] at hok
                  simp only [importFamilyLoop] at hok
                  cases hok
                  exact Or.inl hE
              | real v =>
                  rw [loop_cons_other hE rfl, hrest] at hok
                  simp only [importFamilyLoop] at hok
                  cases hok
                  exact Or.inl hE
              | lazy r =>
                  cases hl : env.loader l with
                  | some v =>
                      rw [loop_cons_lazy_some hE hl, hrest] at hok
                      simp only [importFamilyLoop] at hok
                      cases hok
                      left
                      simp [dictGet_dictSet]
                  | none =>
                      rw [loop_cons_lazy_fallback hE hl, hrest] at hok
                      cases hf : getFromSysModule env { modules := dictDel s.modules l, heap := s.heap, trace := s.trace ++ [l] } l with
                      | error err => rw [hf] at hok; exact absurd hok (by simp)
                      | ok obj =>
                          rw [hf] at hok
                          simp only [importFamilyLoop] at hok
                          cases hok
                          right
                          simp [dictGet_dictDel]
      | cons n2 rest2 =>
          have hlast2 : rest.getLast? = some l := by
            rw [hrest] at hlast ⊢
            rwa [List.getLast?_cons_cons] at hlast
          cases hE : dictGet s.modules n with
          | none => rw [loop_cons_none hE] at hok; exact absurd hok (by simp)
          | some e =>
              cases e with
              | marker => rw [loop_cons_other hE rfl] at hok; exact ih _ _ hndrest hok hlast2
              | real v => rw [loop_cons_other hE rfl] at hok; exact ih _ _ hndrest hok hlast2
              | lazy r =>
                  cases hl : env.loader n with
                  | some v =>
                      rw [loop_cons_lazy_some hE hl] at hok
                      exact ih _ _ hndrest hok hlast2
                  | none =>
                      rw [loop_cons_lazy_fallback hE hl] at hok
                      cases hf : getFromSysModule env { modules := dictDel s.modules n, heap := s.heap, trace := s.trace ++ [n] } n with
                      | error err => rw [hf] at hok; exact absurd hok (by simp)
                      | ok obj =>
                          rw [hf] at hok
                          exact ih _ _ hndrest hok hlast2

/-- When every listed name is bound to a non-lazy entry, the family loop
is a pure walk: it changes nothing and returns the binding of the last
name (or the incoming `module` value for the empty list). -/
theorem loop_noLazy (env : Env) (ns : List ModName) (s : St) (m : Entry)
    (h : ∀ n ∈ ns, ∃ e, dictGet s.modules n = some e ∧ isLazyEntry e = false) :
    ∃ mv, importFamilyLoop env ns s m = .ok s mv ∧
      (ns = [] → mv = m) ∧
      (∀ l, ns.getLast? = some l → dictGet s.modules l = some mv) := by
  induction ns generalizing m with
  | nil => exact ⟨m, rfl, fun _ => rfl, by simp⟩
  | cons n rest ih =>
      obtain ⟨e, hE, hnl⟩ := h n (List.mem_cons_self n rest)
      obtain ⟨mv, hloop, hnil, hlastc⟩ := ih e (fun x hx => h x (List.mem_cons_of_mem n hx))
      refine ⟨mv, ?_, by simp, ?_⟩
      · rw [loop_cons_other hE hnl]
        exact hloop
      · intro l hlast
        cases hrest : rest with
        | nil =>
            subst hrest
            simp only [List.getLast?_singleton, Option.some.injEq] at hlast
            subst hlast
            rw [hnil rfl]
            exact hE
        | cons n2 rest2 =>
            apply hlastc
            rw [hrest] at hlast ⊢
            rwa [List.getLast?_cons_cons] at hlast

/-! Claim theorems. -/

/-- C1: resolving a name through the Resolver (`__import_module`, the
common path of member access, call and `wakeup`) invokes the Loader
exactly for the still-unresolved prefixes of the name, in strict
root-to-leaf order (the trace is extended by exactly the still-lazy
members of the family, in family order), reusing already-resolved
prefixes without re-invoking the Loader. -/
theorem c1_ancestor_first_order (env : Env) (ref : Nat) (s s' : St) (lm : LazyModule)
    (hheap : s.heap[ref]? = some lm)
    (hok : importModule env ref s = .ok s' ()) :
    s'.trace = s.trace ++ (getFamily lm.name).filter (fun n => isLazyName s n) := by
  rw [importModule] at hok
  split at hok
  next heq =>
    rw [hheap] at heq
    cases heq
  next lm' heq =>
    rw [hheap] at heq
    injection heq with heq
    subst heq
    split at hok
    next s1 e heq2 =>
      exact absurd hok (by simp)
    next s1 mv heq2 =>
      have hh : s1.heap = s.heap := by
        have h := loop_heap env (getFamily lm.name) s .marker
        rw [heq2] at h
        exact h
      split at hok
      next heq3 =>
        rw [hh, hheap] at heq3
        cases heq3
      next lm1 heq3 =>
        cases hok
        obtain ⟨t, h1, _, h3, _⟩ :=
          loop_trace env (getFamily lm.name) s .marker (getFamily_nodup lm.name)
        rw [heq2] at h1 h3
        have ht : t = (getFamily lm.name).filter (fun n => isLazyName s n) := h3 s1 mv rfl
        rw [← ht]
        exact h1

/-- Witness for C1 at a concrete input: waking up the `a.b` handle in
`stAB` under `envA` invokes the Loader for `a` then `a.b`. -/
theorem c1_ancestor_first_order_witness :
    stABafter.trace = stAB.trace ++ (getFamily ["a", "b"]).filter (fun n => isLazyName stAB n) :=
  c1_ancestor_first_order envA 0 stAB stABafter
    { name := ["a", "b"], ignored_attrs := [], verbose := 0, module := .marker, logger := false }
    (by decide) (by decide)

/-! Invariants of the registration family. -/

theorem RegRel.refl_reg (s : St) : RegRel s s :=
  ⟨rfl, Nat.le_refl _, fun r lm h => ⟨lm, h, rfl, rfl, fun a ha => ha⟩⟩

theorem RegRel.trans_reg {a b c : St} (h1 : RegRel a b) (h2 : RegRel b c) : RegRel a c := by
  obtain ⟨t1, l1, r1⟩ := h1
  obtain ⟨t2, l2, r2⟩ := h2
  refine ⟨t2.trans t1, l1.trans l2, fun r lm h => ?_⟩
  obtain ⟨lm1, hh1, hn1, hm1, hi1⟩ := r1 r lm h
  obtain ⟨lm2, hh2, hn2, hm2, hi2⟩ := r2 r lm1 hh1
  exact ⟨lm2, hh2, hn2.trans hn1, hm2.trans hm1, fun a ha => hi2 a (hi1 a ha)⟩

theorem LazyPres.refl_pres (s : St) : LazyPres s s := fun _ _ h => h

theorem LazyPres.trans_pres {a b c : St} (h1 : LazyPres a b) (h2 : LazyPres b c) :
    LazyPres a c := fun k r h => h2 k r (h1 k r h)

theorem setVerbose_modules (ref v : Nat) (s : St) :
    (setVerbose ref v s).modules = s.modules := by
  rw [setVerbose]
  split
  · rfl
  · split <;> rfl

theorem setVerbose_trace (ref v : Nat) (s : St) :
    (setVerbose ref v s).trace = s.trace := by
  rw [setVerbose]
  split
  · rfl
  · split <;> rfl

theorem setVerbose_regRel (ref v : Nat) (s : St) : RegRel s (setVerbose ref v s) := by
  refine ⟨setVerbose_trace ref v s, ?_, ?_⟩
  · rw [setVerbose]
    split
    · exact Nat.le_refl _
    · split <;> simp
  · intro r lm h
    rw [setVerbose]
    split
    · exact ⟨lm, h, rfl, rfl, fun a ha => ha⟩
    · next lm0 hlm0 =>
        by_cases hr : r = ref
        · subst hr
          rw [h] at hlm0
          injection hlm0 with hlm0
          subst hlm0
          have hlt : r < s.heap.length := by
            by_contra hge
            rw [List.getElem?_eq_none (by omega)] at h
            cases h
          split
          · exact ⟨{ lm with verbose := v, logger := true },
              by simpa using List.getElem?_set_eq_of_lt _ hlt, rfl, rfl, fun a ha => ha⟩
          · exact ⟨{ lm with verbose := v },
              by simpa using List.getElem?_set_eq_of_lt _ hlt, rfl, rfl, fun a ha => ha⟩
        · have hne : ref ≠ r := fun hc => hr hc.symm
          split <;>
            exact ⟨lm, by simpa using (List.getElem?_set_ne hne).trans h, rfl, rfl, fun a ha => ha⟩

theorem setVerbose_lazyPres (ref v : Nat) (s : St) : LazyPres s (setVerbose ref v s) := by
  intro k r h
  rw [setVerbose]
  split
  · exact h
  · split <;> exact h

theorem getElem?_some_lt {α : Type} {l : List α} {n : Nat} {a : α}
    (h : l[n]? = some a) : n < l.length := by
  by_contra hge
  rw [List.getElem?_eq_none (by omega)] at h
  cases h

/-- A `dictSet` on a key that currently has no binding (or a non-lazy
one) preserves all lazy bindings. -/
theorem lazyPres_dictSet_of_ne (s : St) (name : ModName) (e : Entry)
    (hnone : dictGet s.modules name = none) :
    LazyPres s { s with modules := dictSet s.modules name e } := by
  intro k r h
  have hk : k ≠ name := by
    intro hc
    rw [hc, hnone] at h
    cases h
  simpa [dictGet_dictSet, hk] using h

/-- Every call of the mutually-recursive registration family
(`register`, `LazyModule.__init__`, `LazyModule.__ignore`) satisfies
`RegRel` and `LazyPres`: no Loader invocation, heap records keep their
identity and resolution status, lazy registry entries survive. -/
theorem reg_invariants (fuel : Nat) :
    (∀ name ign verb s s' e, registerF fuel name ign verb s = some (s', e) →
      RegRel s s' ∧ LazyPres s s') ∧
    (∀ name ign verb s s' ref, dictGet s.modules name = none →
      initF fuel name ign verb s = some (s', ref) → RegRel s s' ∧ LazyPres s s') ∧
    (∀ ref ign s s', ignoreF fuel ref ign s = some s' → RegRel s s' ∧ LazyPres s s') ∧
    (∀ ref subs s s', ignoreListF fuel ref subs s = some s' → RegRel s s' ∧ LazyPres s s') := by
  induction fuel with
  | zero =>
      refine ⟨?_, ?_, ?_, ?_⟩ <;> intros <;> simp_all [registerF, initF, ignoreF, ignoreListF]
  | succ n ih =>
      obtain ⟨ihReg, ihInit, ihIgn, ihIgnL⟩ := ih
      have partReg : ∀ name ign verb s s' e, registerF (n + 1) name ign verb s = some (s', e) →
          RegRel s s' ∧ LazyPres s s' := by
        intro name ign verb s s' e hreg
        rw [registerF] at hreg
        split at hreg
        next hE =>
          split at hreg
          · exact absurd hreg (by simp)
          next s1 ref hinit =>
            injection hreg with hreg
            obtain ⟨rfl, rfl⟩ : s' = { s1 with modules := dictSet s1.modules name (.lazy ref) } ∧ e = .lazy ref := by
              constructor <;> [exact (congrArg Prod.fst hreg).symm; exact (congrArg Prod.snd hreg).symm]
            obtain ⟨hrel, hlp⟩ := ihInit name ign verb s s1 ref hE hinit
            constructor
            · refine hrel.trans_reg ⟨rfl, Nat.le_refl _, fun r lm h => ⟨lm, h, rfl, rfl, fun a ha => ha⟩⟩
            · intro k r h
              have hk : k ≠ name := by
                intro hc
                rw [hc, hE] at h
                cases h
              have := hlp k r h
              simpa [dictGet_dictSet, hk] using this
        next ref0 hE =>
          split at hreg
          · exact absurd hreg (by simp)
          next s1 hig =>
            simp only [setVerbose_modules] at hreg
            split at hreg
            · exact absurd hreg (by simp)
            next e0 hE2 =>
              injection hreg with hreg
              obtain ⟨rfl, rfl⟩ : s' = setVerbose ref0 verb s1 ∧ e = e0 := by
                constructor <;> [exact (congrArg Prod.fst hreg).symm; exact (congrArg Prod.snd hreg).symm]
              obtain ⟨hrel, hlp⟩ := ihIgn ref0 ign s s1 hig
              refine ⟨hrel.trans_reg (setVerbose_regRel ref0 verb s1), ?_⟩
              intro k r h
              have := hlp k r h
              have hm := setVerbose_modules ref0 verb s1
              rw [show (setVerbose ref0 verb s1).modules = s1.modules from hm]
              exact this
        next hE =>
          injection hreg with hreg
          obtain ⟨rfl, rfl⟩ : s' = s ∧ e = _ := by
            constructor <;> [exact (congrArg Prod.fst hreg).symm; exact (congrArg Prod.snd hreg).symm]
          exact ⟨RegRel.refl_reg _, LazyPres.refl_pres _⟩
      have partInit : ∀ name ign verb s s' ref, dictGet s.modules name = none →
          initF (n + 1) name ign verb s = some (s', ref) → RegRel s s' ∧ LazyPres s s' := by
        intro name ign verb s s' ref hnone hinit
        rw [initF] at hinit
        set s1 : St := { s with modules := dictSet s.modules name .marker } with hs1
        set s2 : St := { s1 with heap := s1.heap ++ [{ name := name, ignored_attrs := [], verbose := 0, module := .marker, logger := false }] } with hs2
        have hrel12 : RegRel s s2 := by
          refine ⟨rfl, by simp [hs2, hs1], fun r lm h => ⟨lm, ?_, rfl, rfl, fun a ha => ha⟩⟩
          have hlt : r < s.heap.length := getElem?_some_lt h
          simpa [hs2, hs1] using (List.getElem?_append_left hlt).trans h
        have hlp12 : LazyPres s s2 := by
          intro k r h
          have h1 := lazyPres_dictSet_of_ne s name .marker hnone k r h
          exact h1
        have hrel13 : RegRel s (setVerbose s1.heap.length verb s2) :=
          hrel12.trans_reg (setVerbose_regRel _ verb s2)
        have hlp13 : LazyPres s (setVerbose s1.heap.length verb s2) := by
          intro k r h
          rw [show (setVerbose s1.heap.length verb s2).modules = s2.modules from setVerbose_modules _ verb s2]
          exact hlp12 k r h
        split at hinit
        · exact absurd hinit (by simp)
        next s4 hig =>
          obtain ⟨hrel34, hlp34⟩ := ihIgn _ ign _ s4 hig
          have hrel : RegRel s s4 := hrel13.trans_reg hrel34
          have hlp : LazyPres s s4 := hlp13.trans_pres hlp34
          split at hinit
          · injection hinit with hinit
            obtain rfl : s' = s4 := (congrArg Prod.fst hinit).symm
            exact ⟨hrel, hlp⟩
          · split at hinit
            · exact absurd hinit (by simp)
            · rename_i s5 e5 hreg5
              injection hinit with hinit
              obtain rfl : s' = s5 := (congrArg Prod.fst hinit).symm
              obtain ⟨hrel45, hlp45⟩ := ihReg _ _ verb _ _ e5 hreg5
              exact ⟨hrel.trans_reg hrel45, hlp.trans_pres hlp45⟩
      have partIgn : ∀ ref ign s s', ignoreF (n + 1) ref ign s = some s' →
          RegRel s s' ∧ LazyPres s s' := by
        intro ref ign s s' hig
        cases ign with
        | none =>
            rw [ignoreF] at hig
            injection hig with hig
            subst hig
            exact ⟨RegRel.refl_reg s, LazyPres.refl_pres s⟩
        | some subs =>
            rw [ignoreF] at hig
            exact ihIgnL ref subs s s' hig
      refine ⟨partReg, partInit, partIgn, ?_⟩
      intro ref subs s s' hil
      cases subs with
      | nil =>
          rw [ignoreListF] at hil
          injection hil with hil
          subst hil
          exact ⟨RegRel.refl_reg s, LazyPres.refl_pres s⟩
      | cons sub rest =>
          rw [ignoreListF] at hil
          split at hil
          · exact absurd hil (by simp)
          next lm hlm =>
            split at hil
            · exact ihIgnL ref rest s s' hil
            · split at hil
              · exact absurd hil (by simp)
              next s1 e1 hreg1 =>
                split at hil
                · exact absurd hil (by simp)
                next lm1 hlm1 =>
                  obtain ⟨hrel01, hlp01⟩ := ihReg _ none lm.verbose s s1 e1 hreg1
                  have hlt1 : ref < s1.heap.length := getElem?_some_lt hlm1
                  set lm2 := if partitionHead sub ∈ lm1.ignored_attrs then lm1
                    else { lm1 with ignored_attrs := lm1.ignored_attrs ++ [partitionHead sub] } with hlm2
                  have hname2 : lm2.name = lm1.name := by
                    rw [hlm2]
                    split <;> rfl
                  have hmod2 : lm2.module = lm1.module := by
                    rw [hlm2]
                    split <;> rfl
                  have hign2 : ∀ a ∈ lm1.ignored_attrs, a ∈ lm2.ignored_attrs := by
                    rw [hlm2]
                    split
                    · exact fun a ha => ha
                    · intro a ha
                      simp [ha]
                  have hrel1s : RegRel s1 { s1 with heap := s1.heap.set ref lm2 } := by
                    refine ⟨rfl, by simp, fun r lm0 h0 => ?_⟩
                    by_cases hr : r = ref
                    · subst hr
                      rw [hlm1] at h0
                      injection h0 with h0
                      subst h0
                      exact ⟨lm2, by simpa using List.getElem?_set_eq_of_lt lm2 hlt1,
                        hname2, hmod2, hign2⟩
                    · have hne : ref ≠ r := fun hc => hr hc.symm
                      exact ⟨lm0, by simpa using (List.getElem?_set_ne hne).trans h0, rfl, rfl,
                        fun a ha => ha⟩
                  have hlp1s : LazyPres s1 { s1 with heap := s1.heap.set ref lm2 } :=
                    fun k r h0 => h0
                  obtain ⟨hrel2, hlp2⟩ := ihIgnL ref rest _ s' hil
                  exact ⟨(hrel01.trans_reg hrel1s).trans_reg hrel2, (hlp01.trans_pres hlp1s).trans_pres hlp2⟩

/-- `LazyModule.__ignore`'s loop grows the object's ignore set: the old
members survive, and each processed submodule ends up present (itself,
or its head segment). -/
theorem ignoreList_adds (fuel : Nat) :
    ∀ ref subs s s' lm, s.heap[ref]? = some lm →
      ignoreListF fuel ref subs s = some s' →
      ∃ lm' : LazyModule, s'.heap[ref]? = some lm' ∧ lm'.name = lm.name ∧
        lm'.module = lm.module ∧
        (∀ a ∈ lm.ignored_attrs, a ∈ lm'.ignored_attrs) ∧
        (∀ sub ∈ subs, sub ∈ lm'.ignored_attrs ∨ partitionHead sub ∈ lm'.ignored_attrs) := by
  induction fuel with
  | zero =>
      intro ref subs s s' lm hlm hil
      simp [ignoreListF] at hil
  | succ n ih =>
      intro ref subs s s' lm hlm hil
      cases subs with
      | nil =>
          rw [ignoreListF] at hil
          injection hil with hil
          subst hil
          exact ⟨lm, hlm, rfl, rfl, fun a ha => ha, by simp⟩
      | cons sub rest =>
          rw [ignoreListF] at hil
          split at hil
          next heq =>
            rw [hlm] at heq
            cases heq
          next lm0 hlm0 =>
            rw [hlm] at hlm0
            injection hlm0 with h0
            subst h0
            split at hil
            next hmem =>
              obtain ⟨lm', h1, h2, h3, h4, h5⟩ := ih ref rest s s' lm hlm hil
              refine ⟨lm', h1, h2, h3, h4, ?_⟩
              intro x hx
              rcases List.mem_cons.mp hx with rfl | hx'
              · exact Or.inl (h4 x hmem)
              · exact h5 x hx'
            next hmem =>
              split at hil
              · exact absurd hil (by simp)
              · rename_i s1 e1 hreg1
                split at hil
                next heq1 => exact absurd hil (by simp)
                next lm1 hlm1 =>
                  obtain ⟨hrel01, _⟩ := (reg_invariants n).1 _ none lm.verbose s s1 e1 hreg1
                  obtain ⟨_, _, hrec⟩ := hrel01
                  obtain ⟨lm1x, hlm1x, hnx, hmx, hix⟩ := hrec ref lm hlm
                  rw [hlm1] at hlm1x
                  injection hlm1x with h1x
                  subst h1x
                  have hlt1 : ref < s1.heap.length := getElem?_some_lt hlm1
                  by_cases hph : partitionHead sub ∈ lm1.ignored_attrs
                  · simp only [if_pos hph] at hil
                    have hrec2 : ({ s1 with heap := s1.heap.set ref lm1 } : St).heap[ref]? = some lm1 := by
                      simpa using List.getElem?_set_eq_of_lt lm1 hlt1
                    obtain ⟨lm', h1, h2, h3, h4, h5⟩ := ih ref rest _ s' lm1 hrec2 hil
                    refine ⟨lm', h1, h2.trans hnx, h3.trans hmx, fun a ha => h4 a (hix a ha), ?_⟩
                    intro x hx
                    rcases List.mem_cons.mp hx with rfl | hx'
                    · exact Or.inr (h4 _ hph)
                    · exact h5 x hx'
                  · simp only [if_neg hph] at hil
                    have hrec2 : ({ s1 with heap := s1.heap.set ref { lm1 with ignored_attrs := lm1.ignored_attrs ++ [partitionHead sub] } } : St).heap[ref]? = some { lm1 with ignored_attrs := lm1.ignored_attrs ++ [partitionHead sub] } := by
                      simpa using List.getElem?_set_eq_of_lt _ hlt1
                    obtain ⟨lm', h1, h2, h3, h4, h5⟩ := ih ref rest _ s' _ hrec2 hil
                    refine ⟨lm', h1, h2.trans hnx, h3.trans hmx, ?_, ?_⟩
                    · intro a ha
                      exact h4 a (by simp [hix a ha])
                    · intro x hx
                      rcases List.mem_cons.mp hx with rfl | hx'
                      · exact Or.inr (h4 _ (by simp))
                      · exact h5 x hx'

/-- C6 (amended): re-registering a name whose entry is an unresolved
Placeholder merges the supplied ignore list into the existing ignore set
(each submodule itself or its head segment is added, old members are
kept), sets the verbosity to the supplied value (the code overwrites, so
a lower value does lower it), does not touch the Loader trace and does
not resolve the entry; re-registering an already-resolved name returns
the existing entry unchanged. -/
theorem c6_reregister_merge (fuel : Nat) (name : ModName) (subs : List String) (verb : Nat)
    (s s' : St) (ref : Nat) (lm : LazyModule) (e : Entry)
    (hentry : dictGet s.modules name = some (.lazy ref))
    (hheap : s.heap[ref]? = some lm)
    (hreg : registerF (fuel + 1) name (some subs) verb s = some (s', e)) :
    e = .lazy ref ∧ s'.trace = s.trace ∧
    (∃ lm' : LazyModule, s'.heap[ref]? = some lm' ∧ lm'.module = lm.module ∧
      lm'.verbose = verb ∧
      (∀ a ∈ lm.ignored_attrs, a ∈ lm'.ignored_attrs) ∧
      (∀ sub ∈ subs, sub ∈ lm'.ignored_attrs ∨ partitionHead sub ∈ lm'.ignored_attrs)) ∧
    (∀ (name2 : ModName) (v : Val) (ign2 : Option (List String)) (vb2 : Nat) (s2 : St),
      dictGet s2.modules name2 = some (.real v) →
      registerF (fuel + 1) name2 ign2 vb2 s2 = some (s2, .real v)) := by
  have hresolved : ∀ (name2 : ModName) (v : Val) (ign2 : Option (List String)) (vb2 : Nat)
      (s2 : St), dictGet s2.modules name2 = some (.real v) →
      registerF (fuel + 1) name2 ign2 vb2 s2 = some (s2, .real v) := by
    intro name2 v ign2 vb2 s2 h
    simp [registerF, h]
  rw [registerF, hentry] at hreg
  simp only [setVerbose_modules] at hreg
  split at hreg
  · exact absurd hreg (by simp)
  next s1 hig =>
    have higF := hig
    obtain ⟨⟨htr1, _, _⟩, hlp1⟩ := (reg_invariants fuel).2.2.1 ref (some subs) s s1 higF
    have hentry1 : dictGet s1.modules name = some (.lazy ref) := hlp1 name ref hentry
    cases fuel with
    | zero => simp [ignoreF] at hig
    | succ g =>
        rw [ignoreF] at hig
        obtain ⟨lm', hlm', hn', hm', hold, hsubs⟩ :=
          ignoreList_adds g ref subs s s1 lm hheap hig
        split at hreg
        next heq =>
          rw [hentry1] at heq
          cases heq
        next hE2 =>
          rename_i e0
          injection hreg with hreg
          obtain ⟨rfl, rfl⟩ : s' = setVerbose ref verb s1 ∧ e = e0 := by
            constructor <;> [exact (congrArg Prod.fst hreg).symm; exact (congrArg Prod.snd hreg).symm]
          have he0 : e = .lazy ref := by
            rw [hentry1] at hE2
            injection hE2 with h
            exact h.symm
          have hlt : ref < s1.heap.length := getElem?_some_lt hlm'
          refine ⟨he0, ?_, ?_, hresolved⟩
          · rw [setVerbose_trace, htr1]
          · have hsv : setVerbose ref verb s1 = (if 1 ≤ verb ∧ lm'.logger = false then { s1 with heap := s1.heap.set ref { lm' with verbose := verb, logger := true } } else { s1 with heap := s1.heap.set ref { lm' with verbose := verb } }) := by
              rw [setVerbose, hlm']
            rw [hsv]
            by_cases hc : 1 ≤ verb ∧ lm'.logger = false
            · rw [if_pos hc]
              exact ⟨{ lm' with verbose := verb, logger := true },
                by simpa using List.getElem?_set_eq_of_lt _ hlt, hm', rfl, hold, hsubs⟩
            · rw [if_neg hc]
              exact ⟨{ lm' with verbose := verb },
                by simpa using List.getElem?_set_eq_of_lt _ hlt, hm', rfl, hold, hsubs⟩

/-- Counterexample for C6 as stated: re-registering `a` (previously
registered with verbosity 3) at verbosity 0 lowers the placeholder's
verbosity from 3 to 0 — verbosity is overwritten, not monotonically
raised. -/
theorem c6_verbosity_lowered_cex :
    (registerF 10 ["a"] none 3 emptySt).map (fun p => p.1) = some stA3 ∧
    stA3.heap[0]? = some { name := ["a"], ignored_attrs := [], verbose := 3, module := .marker, logger := true } ∧
    registerF 10 ["a"] none 0 stA3 =
      some ({ modules := [(["a"], .lazy 0)], heap := [{ name := ["a"], ignored_attrs := [], verbose := 0, module := .marker, logger := true }], trace := [] }, .lazy 0) ∧
    (0 : Nat) < 3 := by
  decide

/-- Witness for C6 (amended) at a concrete input: re-registering `a`
with `ignore=["c"]` and verbosity 0 over `stA3` merges the ignore set
and sets the verbosity to 0; re-registering over the resolved `stARes`
returns the resolved entry unchanged. -/
theorem c6_reregister_merge_witness :
    (∃ lm' : LazyModule,
      ({ modules := [(["a"], .lazy 0), (["a", "c"], .lazy 1)], heap := [{ name := ["a"], ignored_attrs := ["c"], verbose := 0, module := .marker, logger := true }, { name := ["a", "c"], ignored_attrs := [], verbose := 3, module := .marker, logger := true }], trace := [] } : St).heap[0]? = some lm' ∧
      lm'.module = Entry.marker ∧ lm'.verbose = 0 ∧
      (∀ a ∈ ([] : List String), a ∈ lm'.ignored_attrs) ∧
      (∀ sub ∈ ["c"], sub ∈ lm'.ignored_attrs ∨ partitionHead sub ∈ lm'.ignored_attrs)) ∧
    registerF 10 ["a"] none 1 stARes = some (stARes, .real 10) := by
  have h := c6_reregister_merge 9 ["a"] ["c"] 0 stA3
    { modules := [(["a"], .lazy 0), (["a", "c"], .lazy 1)], heap := [{ name := ["a"], ignored_attrs := ["c"], verbose := 0, module := .marker, logger := true }, { name := ["a", "c"], ignored_attrs := [], verbose := 3, module := .marker, logger := true }], trace := [] }
    0 { name := ["a"], ignored_attrs := [], verbose := 3, module := .marker, logger := true }
    (.lazy 0) (by decide) (by decide) (by decide)
  exact ⟨h.2.2.1, h.2.2.2 ["a"] 10 none 1 stARes (by decide)⟩

/-- C2 (amended): accessing a member that is in the ignore set, is not
one of the reserved names, and does not match an introspection-tool
name, returns the nested handle registered under the dotted child name
and leaves the state (in particular the Placeholder and the Loader
trace) completely unchanged. -/
theorem c2_ignore_access (env : Env) (s : St) (ref : Nat) (lm : LazyModule)
    (attr callerName : String) (e : Entry)
    (hheap : s.heap[ref]? = some lm)
    (hunres : lm.module = Entry.marker)
    (hskip : attr ∉ skipped_attrs)
    (hpre : skipped_startswith.any (fun p => strStartsWith attr p) = false)
    (hign : attr ∈ lm.ignored_attrs)
    (hentry : dictGet s.modules (lm.name ++ splitSegs attr) = some e) :
    getattrMethod env ref attr callerName s = .ok s e := by
  rw [getattrMethod, hheap]
  simp [hunres, Entry.isTruthy, hskip, hpre, hign, hentry]

/-- Counterexample for C2 as stated: after `register("a",
ignore=["__spec__"])`, the member `__spec__` is in the ignore set and a
nested handle is registered under `a.__spec__`, yet accessing
`__spec__` on the `a` handle returns the neutral `None`, not the nested
handle (the reserved-name check precedes the ignore check). -/
theorem c2_ignore_reserved_cex :
    (stSpec.heap[0]?.map (fun lm => lm.ignored_attrs)).getD [] = ["__spec__"] ∧
    dictGet stSpec.modules ["a", "__spec__"] = some (Entry.lazy 1) ∧
    getattrMethod envA 0 "__spec__" "f" stSpec = .ok stSpec Entry.marker ∧
    Entry.marker ≠ Entry.lazy 1 := by
  decide

/-- Witness for C2 (amended) at a concrete input: accessing `b` on the
`a` handle of `stIgn` returns the nested `a.b` handle and changes
nothing. -/
theorem c2_ignore_access_witness :
    getattrMethod envNone 0 "b" "f" stIgn = .ok stIgn (Entry.lazy 1) :=
  c2_ignore_access envNone stIgn 0
    { name := ["a"], ignored_attrs := ["b"], verbose := 0, module := .marker, logger := false }
    "b" "f" (Entry.lazy 1) (by decide) rfl (by decide) (by decide) (by decide) (by decide)

/-- C7 (amended): on an unresolved Placeholder, every member of the
reserved set returns the neutral `None` without resolving when the
access does not come from the import machinery's internal frame, and
every member of the reserved set (not just one) falls through to real
resolution when it does; members matching one of the introspection-tool
name patterns always return the neutral `None` without resolving. -/
theorem c7_reserved_neutral (env : Env) (s : St) (ref : Nat) (lm : LazyModule)
    (attr callerName : String)
    (hheap : s.heap[ref]? = some lm)
    (hunres : lm.module = Entry.marker) :
    (attr ∈ skipped_attrs → callerName ≠ findAndLoadName →
      getattrMethod env ref attr callerName s = .ok s Entry.marker) ∧
    (attr ∈ skipped_attrs → callerName = findAndLoadName →
      getattrMethod env ref attr callerName s = wakeAndGet env ref attr s) ∧
    (attr ∉ skipped_attrs → skipped_startswith.any (fun p => strStartsWith attr p) = true →
      getattrMethod env ref attr callerName s = .ok s Entry.marker) := by
  refine ⟨?_, ?_, ?_⟩
  · intro hskip hcall
    rw [getattrMethod, hheap]
    simp [hunres, Entry.isTruthy, hskip, hcall]
  · intro hskip hcall
    rw [getattrMethod, hheap]
    simp [hunres, Entry.isTruthy, hskip, hcall]
  · intro hskip hpre
    rw [getattrMethod, hheap]
    simp [hunres, Entry.isTruthy, hskip, hpre]

/-- Counterexample for C7 as stated: both reserved names, `__spec__`
and `__path__`, fall through to real resolution when accessed from
the import machinery's frame (the Loader is invoked for `a` in both
runs), so there is not exactly one such reserved name. -/
theorem c7_reserved_fallthrough_cex :
    "__spec__" ∈ skipped_attrs ∧ "__path__" ∈ skipped_attrs ∧ "__spec__" ≠ "__path__" ∧
    getattrMethod envA 0 "__spec__" findAndLoadName stA =
      .exn stARes (.attributeError (Entry.real 10) "__spec__") ∧
    getattrMethod envA 0 "__path__" findAndLoadName stA =
      .exn stARes (.attributeError (Entry.real 10) "__path__") ∧
    stARes.trace = stA.trace ++ [["a"]] := by
  decide

/-- Witness for C7 (amended) at concrete inputs: `__spec__` is neutral
from an ordinary frame, resolves from the import machinery's frame, and
the `_repr_`-style member is neutral. -/
theorem c7_reserved_neutral_witness :
    getattrMethod envA 0 "__spec__" "f" stA = .ok stA Entry.marker ∧
    getattrMethod envA 0 "__spec__" findAndLoadName stA = wakeAndGet envA 0 "__spec__" stA ∧
    getattrMethod envA 0 "_repr_html_" "f" stA = .ok stA Entry.marker := by
  have hlm : stA.heap[0]? = some { name := ["a"], ignored_attrs := [], verbose := 0, module := .marker, logger := false } := by decide
  refine ⟨?_, ?_, ?_⟩
  · exact (c7_reserved_neutral envA stA 0 _ "__spec__" "f" hlm rfl).1 (by decide) (by decide)
  · exact (c7_reserved_neutral envA stA 0 _ "__spec__" findAndLoadName hlm rfl).2.1 (by decide) rfl
  · exact (c7_reserved_neutral envA stA 0 _ "_repr_html_" "f" hlm rfl).2.2 (by decide) (by decide)

/-- C9 (amended): re-registering a name whose entry is already Resolved
never raises anything: `register` returns the existing resolved entry
unchanged regardless of the supplied ignore list and verbosity (there
is no conflict check and no `ConflictError` anywhere in the core). -/
theorem c9_reregister_resolved_noerror (fuel : Nat) (name : ModName)
    (ign : Option (List String)) (verb : Nat) (s : St) (v : Val)
    (h : dictGet s.modules name = some (.real v)) :
    registerF (fuel + 1) name ign verb s = some (s, .real v) := by
  simp [registerF, h]

/-- Counterexample for C9 as stated: re-registering the resolved `a`
with different metadata (a new ignore list, a different verbosity)
returns the resolved entry unchanged and raises no error — the model of
`register` has no failure path at all besides fuel exhaustion, matching
a source in which no `ConflictError` exists. -/
theorem c9_no_conflict_error_cex :
    registerF 10 ["a"] (some ["b"]) 2 stARes = some (stARes, Entry.real 10) := by
  decide

/-- Witness for C9 (amended) at a concrete input. -/
theorem c9_reregister_resolved_noerror_witness :
    registerF 5 ["a"] none 1 stARes = some (stARes, Entry.real 10) :=
  c9_reregister_resolved_noerror 4 ["a"] none 1 stARes 10 (by decide)

/-- C4 (amended): when a resolution attempt raises, the error is
surfaced to the caller with the mutations kept: the handle object
itself is untouched (the heap is unchanged, so the Placeholder stays
unresolved), every previously-resolved registry entry stays resolved
(no rollback), and each prefix the Loader was invoked for in this
attempt is bound to the Loader's result — present when the import
succeeded, and deleted (absent, rather than remaining an unresolved
Placeholder) when it failed. -/
theorem c4_failure_behaviour (env : Env) (ref : Nat) (s s' : St) (lm : LazyModule)
    (err : PyErr)
    (hheap : s.heap[ref]? = some lm)
    (hexn : importModule env ref s = .exn s' err) :
    s'.heap = s.heap ∧
    (∀ n v, dictGet s.modules n = some (.real v) → dictGet s'.modules n = some (.real v)) ∧
    (∃ t, s'.trace = s.trace ++ t ∧
      t.Sublist ((getFamily lm.name).filter (fun n => isLazyName s n)) ∧
      (∀ n ∈ t, dictGet s'.modules n = (env.loader n).map Entry.real)) := by
  rw [importModule] at hexn
  split at hexn
  next heq =>
    rw [hheap] at heq
    cases heq
  next lm0 heq =>
    rw [hheap] at heq
    injection heq with heq
    subst heq
    split at hexn
    next s1 e heq2 =>
      injection hexn with h1 h2
      subst h1
      have hstate : (importFamilyLoop env (getFamily lm.name) s .marker).state = s1 := by
        rw [heq2]
        rfl
      refine ⟨?_, ?_, ?_⟩
      · rw [← hstate]
        exact loop_heap env (getFamily lm.name) s .marker
      · intro n v hv
        rw [← hstate]
        exact loop_real_persist env (getFamily lm.name) s .marker n v hv
      · obtain ⟨t, ht1, ht2, _, ht4⟩ :=
          loop_trace env (getFamily lm.name) s .marker (getFamily_nodup lm.name)
        rw [hstate] at ht1 ht4
        exact ⟨t, ht1, ht2, ht4⟩
    next s1 mv heq2 =>
      split at hexn
      next heq3 =>
        have hh : s1.heap = s.heap := by
          have h := loop_heap env (getFamily lm.name) s .marker
          rw [heq2] at h
          exact h
        rw [hh, hheap] at heq3
        cases heq3
      next lm1 heq3 =>
        exact absurd hexn (by simp)

/-- Counterexample for C4 as stated: with a Loader that fails for `x`,
an attribute access on the registered `x` handle raises the not-found
error, but the failing segment's registry entry is deleted rather than
remaining an unresolved Placeholder, and after the Loader is fixed
(`envX` imports `x`) a later access still fails — with a registry
key-lookup error — instead of resolving normally. -/
theorem c4_retry_cex :
    getattrMethod envNone 0 "foo" "caller" stX = .exn stXfail (.moduleNotFound ["x"]) ∧
    dictGet stXfail.modules ["x"] = none ∧
    getattrMethod envX 0 "foo" "caller" stXfail = .exn stXfail (.keyError ["x"]) := by
  decide

/-- Witness for C4 (amended) at a concrete input: the failed access on
`stX` keeps the heap (the handle object) intact and extends the trace
by the one Loader invocation it made. -/
theorem c4_failure_behaviour_witness :
    stXfail.heap = stX.heap ∧ stXfail.trace = stX.trace ++ [["x"]] := by
  have h := c4_failure_behaviour envNone 0 stX stXfail
    { name := ["x"], ignored_attrs := [], verbose := 0, module := .marker, logger := false }
    (.moduleNotFound ["x"]) (by decide) (by decide)
  exact ⟨h.1, by decide⟩

theorem count_le_one_of_nodup {l : List ModName} (h : l.Nodup) (a : ModName) :
    l.count a ≤ 1 := by
  induction l with
  | nil => simp
  | cons x xs ih =>
      rw [List.nodup_cons] at h
      have hxs := ih h.2
      by_cases hax : a = x
      · subst hax
        have h0 : xs.count a = 0 := List.count_eq_zero_of_not_mem h.1
        simp [List.count_cons, h0]
      · simpa [List.count_cons, hax] using hxs

/-- C5 (amended): after a successful wakeup, as long as every prefix of
the handle's name still has a registry entry (which holds whenever
every prefix was resolved through the Loader rather than the
parent-attribute fallback), a second wakeup is a strict no-op — it
returns the same state, so it invokes no Loader — and the whole
sequence invokes the Loader at most once for the handle's name.  (When
a prefix was resolved through the fallback its entry is gone, and a
second wakeup raises a key-lookup error instead; see the
counterexample.) -/
theorem c5_wakeup_idempotent (env : Env) (ref : Nat) (s s1 : St) (lm : LazyModule)
    (hheap : s.heap[ref]? = some lm)
    (hname : lm.name ≠ [])
    (hok : importModule env ref s = .ok s1 ())
    (hall : ∀ n ∈ getFamily lm.name, dictGet s1.modules n ≠ none) :
    importModule env ref s1 = .ok s1 () ∧
    (s1.trace.drop s.trace.length).count lm.name ≤ 1 := by
  rw [importModule] at hok
  split at hok
  next heq =>
    rw [hheap] at heq
    cases heq
  next lm0 heq =>
    rw [hheap] at heq
    injection heq with heq
    subst heq
    split at hok
    next sE e heqE => exact absurd hok (by simp)
    next sL mv heqL =>
      have hhL : sL.heap = s.heap := by
        have h := loop_heap env (getFamily lm.name) s .marker
        rw [heqL] at h
        exact h
      split at hok
      next heq3 =>
        rw [hhL, hheap] at heq3
        cases heq3
      next lm1 heq3 =>
        rw [hhL, hheap] at heq3
        injection heq3 with heq3
        subst heq3
        injection hok with hok1 hok2
        have hmods : s1.modules = sL.modules := by rw [← hok1]
        have htraces : s1.trace = sL.trace := by rw [← hok1]
        have hheapval : s1.heap = s.heap.set ref { lm with module := mv } := by
          rw [← hok1]
          show sL.heap.set ref _ = _
          rw [hhL]
        have hlt : ref < s.heap.length := getElem?_some_lt hheap
        have hheap1 : s1.heap[ref]? = some { lm with module := mv } := by
          rw [hheapval]
          simpa using List.getElem?_set_eq_of_lt _ hlt
        obtain ⟨t, ht1, ht2, ht3, ht4⟩ :=
          loop_trace env (getFamily lm.name) s .marker (getFamily_nodup lm.name)
        rw [heqL] at ht1 ht3 ht4
        rw [show (PyResult.ok sL mv).state = sL from rfl] at ht1 ht4
        have htfilter : t = (getFamily lm.name).filter (fun n => isLazyName s n) :=
          ht3 sL mv rfl
        have hcount : (s1.trace.drop s.trace.length).count lm.name ≤ 1 := by
          rw [htraces, ht1, List.drop_left]
          calc t.count lm.name
              ≤ ((getFamily lm.name).filter (fun n => isLazyName s n)).count lm.name :=
                le_of_eq (by rw [htfilter])
            _ ≤ (getFamily lm.name).count lm.name := (List.filter_sublist _).count_le _
            _ ≤ 1 := count_le_one_of_nodup (getFamily_nodup lm.name) lm.name
        refine ⟨?_, hcount⟩
        have hnl : ∀ n ∈ getFamily lm.name, ∃ e, dictGet s1.modules n = some e ∧
            isLazyEntry e = false := by
          intro n hn
          obtain ⟨e, he⟩ := Option.ne_none_iff_exists'.mp (hall n hn)
          refine ⟨e, he, ?_⟩
          by_cases hl : isLazyName s n = true
          · have hmem : n ∈ t := by
              rw [htfilter, List.mem_filter]
              exact ⟨hn, hl⟩
            have hent := ht4 n hmem
            rw [← hmods, he] at hent
            cases hldr : env.loader n with
            | none =>
                rw [hldr] at hent
                cases hent
            | some v =>
                rw [hldr] at hent
                simp only [Option.map] at hent
                injection hent with hent
                rw [hent]
                rfl
          · have hbool : isLazyName s n = false := by
              cases hfl : isLazyName s n
              · rfl
              · exact absurd hfl hl
            have hpres := loop_nonlazy_pres env (getFamily lm.name) s .marker n hbool
            rw [heqL] at hpres
            rw [show (PyResult.ok sL mv).state = sL from rfl] at hpres
            rw [← hmods, he] at hpres
            rw [isLazyName, ← hpres] at hbool
            cases e with
            | marker => rfl
            | real v => rfl
            | lazy r => simp at hbool
        obtain ⟨mv2, hloop2, hnil2, hlast2⟩ :=
          loop_noLazy env (getFamily lm.name) s1 .marker hnl
        have hmv2 : dictGet s1.modules lm.name = some mv2 :=
          hlast2 lm.name (getFamily_getLast? hname)
        have hmveq : mv2 = mv := by
          have hlv := loop_last_val env (getFamily lm.name) s .marker
            (getFamily_nodup lm.name) sL mv lm.name heqL (getFamily_getLast? hname)
          rw [← hmods] at hlv
          rcases hlv with hlv | hlv
          · rw [hmv2] at hlv
            exact Option.some.inj hlv
          · rw [hmv2] at hlv
            cases hlv
        have hset : s1.heap.set ref { lm with module := mv } = s1.heap :=
          list_set_self _ _ _ hheap1
        rw [importModule]
        rw [show s1.heap[ref]? = some { lm with module := mv } from hheap1]
        show (match importFamilyLoop env (getFamily lm.name) s1 .marker with
          | PyResult.exn s2 e => PyResult.exn s2 e
          | PyResult.ok s2 module =>
            match s2.heap[ref]? with
            | none => PyResult.exn s2 (PyErr.badRef ref)
            | some lmx => PyResult.ok { s2 with heap := s2.heap.set ref { lmx with module := module } } ()) = PyResult.ok s1 ()
        rw [hloop2]
        show (match s1.heap[ref]? with
          | none => PyResult.exn s1 (PyErr.badRef ref)
          | some lmx => PyResult.ok { s1 with heap := s1.heap.set ref { lmx with module := mv2 } } ()) = PyResult.ok s1 ()
        rw [hheap1]
        show PyResult.ok { s1 with heap := s1.heap.set ref { lm with module := mv2 } } () = PyResult.ok s1 ()
        rw [hmveq, hset]

/-- Counterexample for C5 as stated: the `x.y` handle resolves through
the attribute fallback (Loader fails for `x.y`, `y` is found on the
imported `x`), which deletes the `x.y` registry entry; the second
wakeup of the now-resolved handle is not a no-op — it raises a
key-lookup error. -/
theorem c5_fallback_retry_cex :
    importModule envA 0 stXY = .ok stXYafter () ∧
    stXYafter.heap[0]? = some { name := ["x", "y"], ignored_attrs := [], verbose := 0, module := .real 21, logger := false } ∧
    importModule envA 0 stXYafter = .exn stXYafter (.keyError ["x", "y"]) := by
  decide

/-- Witness for C5 (amended) at a concrete input: after waking `a.b` up
(`stAB` to `stABafter`), a second wakeup returns `stABafter` unchanged,
and the Loader ran at most once for `a.b`. -/
theorem c5_wakeup_idempotent_witness :
    importModule envA 0 stABafter = .ok stABafter () ∧
    (stABafter.trace.drop stAB.trace.length).count ["a", "b"] ≤ 1 :=
  c5_wakeup_idempotent envA 0 stAB stABafter
    { name := ["a", "b"], ignored_attrs := [], verbose := 0, module := .marker, logger := false }
    (by decide) (by decide) (by decide) (by decide)

/-- C8: `listall` returns exactly the registry entries that are
still-unresolved Placeholders at call time — a fresh list (of handles,
as heap indices) whose membership, and hence length, is a function of
the call-time state alone, so later resolutions cannot affect an
already-taken snapshot. -/
theorem c8_listall_snapshot (s : St) (r : Nat) :
    r ∈ listall s ↔
      ∃ n : ModName, ∃ lm : LazyModule, (n, Entry.lazy r) ∈ s.modules ∧
        s.heap[r]? = some lm ∧ lm.module = Entry.marker := by
  rw [listall, List.mem_filterMap]
  constructor
  · rintro ⟨⟨n, e⟩, hmem, hf⟩
    cases e with
    | marker => simp at hf
    | real v => simp at hf
    | lazy r0 =>
        simp only [] at hf
        cases hlm : s.heap[r0]? with
        | none => rw [hlm] at hf; simp at hf
        | some lm =>
            rw [hlm] at hf
            by_cases ht : lm.module.isTruthy = true
            · simp [ht] at hf
            · simp [ht] at hf
              subst hf
              refine ⟨n, lm, hmem, hlm, ?_⟩
              cases hmod : lm.module with
              | marker => rfl
              | lazy x => rw [hmod] at ht; exact absurd rfl ht
              | real x => rw [hmod] at ht; exact absurd rfl ht
  · rintro ⟨n, lm, hmem, hlm, hmod⟩
    refine ⟨(n, Entry.lazy r), hmem, ?_⟩
    simp only [hlm, hmod]
    rfl

/-- C10: `repr` of a handle is pure — it takes no state and returns
only a string, so it cannot invoke the Loader or change any registry
entry; it does not even depend on the Loader or attribute tables (only
on `repr` of real values).  An unresolved Placeholder renders its class
name, its dotted name and (when non-empty) its ignore set, and a
resolved one delegates to the underlying value's `repr`. -/
theorem c10_repr_pure (env1 env2 : Env) (s : St) (ref : Nat) (lm : LazyModule)
    (hheap : s.heap[ref]? = some lm) :
    (env1.reprVal = env2.reprVal → reprMethod env1 s ref = reprMethod env2 s ref) ∧
    (lm.module = Entry.marker →
      reprMethod env1 s ref = some ("LazyModule(" ++ String.intercalate dotSep lm.name ++
        (if lm.ignored_attrs = [] then "" else ", ignore=" ++ pyListRepr lm.ignored_attrs)
        ++ ")")) ∧
    (∀ v, lm.module = Entry.real v → reprMethod env1 s ref = some (env1.reprVal v)) := by
  refine ⟨?_, ?_, ?_⟩
  · intro hrv
    rw [reprMethod, reprMethod, hheap]
    cases hmod : lm.module with
    | marker => simp [hmod, Entry.isTruthy]
    | lazy r => simp [hmod, Entry.isTruthy]
    | real v => simp [hmod, Entry.isTruthy, hrv]
  · intro hmod
    rw [reprMethod, hheap]
    simp [hmod, Entry.isTruthy]
  · intro v hmod
    rw [reprMethod, hheap]
    simp [hmod, Entry.isTruthy]

/-- Witness for C10 at concrete inputs: on the unresolved `stIgn`
handle the two environments with the same value-`repr` agree and the
placeholder form is rendered; on the resolved `stARes` handle the
value's `repr` is delegated to. -/
theorem c10_repr_pure_witness :
    reprMethod envA stIgn 0 = reprMethod envNone stIgn 0 ∧
    reprMethod envA stIgn 0 = some ("LazyModule(" ++ String.intercalate dotSep ["a"] ++
      (if (["b"] : List String) = [] then "" else ", ignore=" ++ pyListRepr ["b"]) ++ ")") ∧
    reprMethod envA stARes 0 = some (envA.reprVal 10) := by
  refine ⟨?_, ?_, ?_⟩
  · exact (c10_repr_pure envA envNone stIgn 0
      { name := ["a"], ignored_attrs := ["b"], verbose := 0, module := .marker, logger := false }
      (by decide)).1 rfl
  · exact (c10_repr_pure envA envNone stIgn 0
      { name := ["a"], ignored_attrs := ["b"], verbose := 0, module := .marker, logger := false }
      (by decide)).2.1 rfl
  · exact (c10_repr_pure envA envNone stARes 0
      { name := ["a"], ignored_attrs := [], verbose := 0, module := .real 10, logger := false }
      (by decide)).2.2 10 rfl

/-! Helpers for the fresh-registration chain (C3). -/

theorem list_set_concat {α : Type} (l : List α) (a b : α) :
    (l ++ [a]).set l.length b = l ++ [b] := by
  induction l with
  | nil => rfl
  | cons x xs ih => simp [List.set, ih]

theorem getLastD_mem {α : Type} (l : List α) (d : α) (h : l ≠ []) : l.getLastD d ∈ l := by
  rw [List.getLastD_eq_getLast? d l, List.getLast?_eq_getLast l h]
  exact List.getLast_mem h

theorem dropLast_ne_nil {α : Type} {l : List α} (h : 2 ≤ l.length) : l.dropLast ≠ [] := by
  intro hc
  have := congrArg List.length hc
  rw [List.length_dropLast] at this
  simp at this
  omega

theorem partitionHead_of_single {l : String} (h : splitSegs l = [l]) : partitionHead l = l := by
  rw [partitionHead, h]
  rfl

/-- `__set_verbose` on a freshly-allocated record: verbosity is set and
the logger is initialised exactly when the verbosity is at least 1. -/
theorem setVerbose_fresh (ref v : Nat) (sx : St) (nm : ModName)
    (hrec : sx.heap[ref]? = some { name := nm, ignored_attrs := [], verbose := 0, module := Entry.marker, logger := false }) :
    setVerbose ref v sx = { sx with heap := sx.heap.set ref { name := nm, ignored_attrs := [], verbose := v, module := Entry.marker, logger := decide (1 ≤ v) } } := by
  rw [setVerbose, hrec]
  simp only []
  by_cases hv : 1 ≤ v
  · rw [if_pos ⟨hv, trivial⟩, decide_eq_true hv]
  · rw [if_neg (fun h => hv h.1), decide_eq_false hv]

/-- The `__ignore` phase of a fresh `__init__` with no ignore list. -/
theorem ignore_phase_none (f ref : Nat) (sx : St) :
    ignoreF (f + 1) ref none sx = some sx := by
  rw [ignoreF]

/-- The `__ignore` phase of a fresh `__init__` with a single dot-free
ignored submodule whose dotted child already carries the in-progress
marker: the child registration returns at once and the submodule is
recorded in the ignore set. -/
theorem ignore_phase_single (f ref : Nat) (l : String) (sx : St) (lm : LazyModule)
    (hrec : sx.heap[ref]? = some lm)
    (hemp : lm.ignored_attrs = [])
    (hsl : splitSegs l = [l])
    (hchild : dictGet sx.modules (lm.name ++ [l]) = some Entry.marker) :
    ignoreF (f + 3) ref (some [l]) sx =
      some { sx with heap := sx.heap.set ref { lm with ignored_attrs := [l] } } := by
  rw [ignoreF]
  rw [ignoreListF, hrec]
  simp only []
  have hl1 : l ∉ lm.ignored_attrs := by
    rw [hemp]
    simp
  rw [if_neg hl1]
  have hchild2 : registerF (f + 1) (lm.name ++ splitSegs l) none lm.verbose sx =
      some (sx, Entry.marker) := by
    rw [hsl, registerF, hchild]
  rw [hchild2]
  simp only []
  rw [hrec]
  simp only []
  have hph : partitionHead l ∉ lm.ignored_attrs := by
    rw [hemp]
    simp
  simp only [if_neg hph]
  rw [ignoreListF]
  rw [hemp, partitionHead_of_single hsl]
  rfl

/-- Fresh registration of a dotted name whose whole prefix chain is
unregistered: a Placeholder is created for the name (at the next heap
slot) and recursively for every strict ancestor, each ancestor's ignore
set receiving its immediate child's leaf segment; nothing else in the
registry, no pre-existing heap record and no trace entry is touched. -/
theorem regChain : ∀ k : Nat, ∀ name : ModName, name.length = k → name ≠ [] →
    (∀ seg ∈ name, splitSegs seg = [seg]) →
    ∀ (ign : Option (List String)) (v : Nat) (s : St) (f : Nat),
    2 * k ≤ f + 1 →
    (∀ p ∈ getFamily name, dictGet s.modules p = none) →
    (ign = none ∨ ∃ l, ign = some [l] ∧ splitSegs l = [l] ∧
      dictGet s.modules (name ++ [l]) = some Entry.marker) →
    ∃ s' : St,
      registerF (f + 5) name ign v s = some (s', Entry.lazy s.heap.length) ∧
      s'.heap[s.heap.length]? = some { name := name, ignored_attrs := ign.getD [], verbose := v, module := Entry.marker, logger := decide (1 ≤ v) } ∧
      dictGet s'.modules name = some (Entry.lazy s.heap.length) ∧
      (∀ i, i + 1 < name.length →
        ∃ (r : Nat) (lmi : LazyModule),
          dictGet s'.modules (name.take (i + 1)) = some (Entry.lazy r) ∧
          s'.heap[r]? = some lmi ∧ lmi.name = name.take (i + 1) ∧
          lmi.module = Entry.marker ∧ name.getD (i + 1) "" ∈ lmi.ignored_attrs) ∧
      (∀ p, p ∉ getFamily name → dictGet s'.modules p = dictGet s.modules p) ∧
      (∀ r, r < s.heap.length → s'.heap[r]? = s.heap[r]?) ∧
      s'.trace = s.trace := by
  intro k
  induction k using Nat.strong_induction_on with
  | _ k ih =>
    intro name hk hne hsegs ign v s f hfuel hfresh hign
    have hkpos : 0 < name.length := List.length_pos.mpr hne
    have hnone : dictGet s.modules name = none := hfresh name (self_mem_getFamily hne)
    have hname_ne_child : ∀ l : String, name ++ [l] ≠ name := by
      intro l hc
      have := congrArg List.length hc
      simp at this
    obtain ⟨recI, hrecI, hphase⟩ : ∃ recI : LazyModule,
        recI = { name := name, ignored_attrs := ign.getD [], verbose := v, module := Entry.marker, logger := decide (1 ≤ v) } ∧
        ignoreF (f + 3) s.heap.length ign { modules := dictSet s.modules name Entry.marker, heap := s.heap ++ [{ name := name, ignored_attrs := [], verbose := v, module := Entry.marker, logger := decide (1 ≤ v) }], trace := s.trace } =
        some { modules := dictSet s.modules name Entry.marker, heap := s.heap ++ [recI], trace := s.trace } := by
      rcases hign with rfl | ⟨l, rfl, hsl, hchildM⟩
      · exact ⟨_, rfl, ignore_phase_none (f + 2) _ _⟩
      · refine ⟨{ name := name, ignored_attrs := [l], verbose := v, module := Entry.marker, logger := decide (1 ≤ v) }, rfl, ?_⟩
        have hrecV : (({ modules := dictSet s.modules name Entry.marker, heap := s.heap ++ [{ name := name, ignored_attrs := [], verbose := v, module := Entry.marker, logger := decide (1 ≤ v) }], trace := s.trace } : St)).heap[s.heap.length]? = some { name := name, ignored_attrs := [], verbose := v, module := Entry.marker, logger := decide (1 ≤ v) } := by
          simpa using List.getElem?_concat_length s.heap _
        have hchild2 : dictGet ({ modules := dictSet s.modules name Entry.marker, heap := s.heap ++ [{ name := name, ignored_attrs := [], verbose := v, module := Entry.marker, logger := decide (1 ≤ v) }], trace := s.trace } : St).modules (({ name := name, ignored_attrs := [], verbose := v, module := Entry.marker, logger := decide (1 ≤ v) } : LazyModule).name ++ [l]) = some Entry.marker := by
          show dictGet (dictSet s.modules name Entry.marker) (name ++ [l]) = some Entry.marker
          rw [dictGet_dictSet, if_neg (hname_ne_child l)]
          exact hchildM
        have h := ignore_phase_single f s.heap.length l _ _ hrecV rfl hsl hchild2
        rw [h]
        congr 2
        rw [show (({ modules := dictSet s.modules name Entry.marker, heap := s.heap ++ [{ name := name, ignored_attrs := [], verbose := v, module := Entry.marker, logger := decide (1 ≤ v) }], trace := s.trace } : St)).heap = s.heap ++ [{ name := name, ignored_attrs := [], verbose := v, module := Entry.marker, logger := decide (1 ≤ v) }] from rfl]
        rw [list_set_concat]
    -- the state after the whole `__init__` prefix (marker, allocation,
    -- `__set_verbose`, `__ignore`), before the parent registration
    have hinit : initF (f + 4) name ign v s =
        (if name.dropLast = [] then some ({ modules := dictSet s.modules name Entry.marker, heap := s.heap ++ [recI], trace := s.trace }, s.heap.length)
         else match registerF (f + 3) name.dropLast (some [name.getLastD ""]) v { modules := dictSet s.modules name Entry.marker, heap := s.heap ++ [recI], trace := s.trace } with
              | none => none
              | some (s5, _) => some (s5, s.heap.length)) := by
      have hrec0 : (({ modules := dictSet s.modules name Entry.marker, heap := s.heap ++ [{ name := name, ignored_attrs := [], verbose := 0, module := Entry.marker, logger := false }], trace := s.trace } : St)).heap[s.heap.length]? = some { name := name, ignored_attrs := [], verbose := 0, module := Entry.marker, logger := false } := by
        simpa using List.getElem?_concat_length s.heap _
      rw [initF]
      simp only []
      rw [setVerbose_fresh _ _ _ _ hrec0, show (({ modules := dictSet s.modules name Entry.marker, heap := s.heap ++ [{ name := name, ignored_attrs := [], verbose := 0, module := Entry.marker, logger := false }], trace := s.trace } : St)).heap = s.heap ++ [{ name := name, ignored_attrs := [], verbose := 0, module := Entry.marker, logger := false }] from rfl, list_set_concat]
      rw [show ({ modules := dictSet s.modules name Entry.marker, heap := s.heap ++ [{ name := name, ignored_attrs := [], verbose := 0, module := Entry.marker, logger := false }], trace := s.trace } : St).modules = dictSet s.modules name Entry.marker from rfl]
      rw [hphase]
    by_cases hk1 : name.dropLast = []
    · -- single-segment name: no parent registration
      have hlen1 : name.length = 1 := by
        have hld := List.length_dropLast name
        rw [hk1] at hld
        simp at hld
        omega
      refine ⟨{ modules := dictSet (dictSet s.modules name Entry.marker) name (Entry.lazy s.heap.length), heap := s.heap ++ [recI], trace := s.trace }, ?_, ?_, ?_, ?_, ?_, ?_, ?_⟩
      · rw [registerF, hnone, hinit, if_pos hk1]
      · show (s.heap ++ [recI])[s.heap.length]? = _
        rw [List.getElem?_concat_length, hrecI]
      · show dictGet (dictSet (dictSet s.modules name Entry.marker) name (Entry.lazy s.heap.length)) name = _
        rw [dictGet_dictSet, if_pos rfl]
      · intro i hi
        rw [hlen1] at hi
        omega
      · intro p hp
        have hpn : p ≠ name := fun hc => hp (by rw [hc]; exact self_mem_getFamily hne)
        show dictGet (dictSet (dictSet s.modules name Entry.marker) name (Entry.lazy s.heap.length)) p = _
        rw [dictGet_dictSet, if_neg hpn, dictGet_dictSet, if_neg hpn]
      · intro r hr
        show (s.heap ++ [recI])[r]? = _
        exact List.getElem?_append_left hr
      · rfl
    · -- at least two segments: recursively register the parent
      have hk2 : 2 ≤ name.length := by
        rcases Nat.lt_or_ge name.length 2 with h | h
        · exfalso
          apply hk1
          rw [List.dropLast_eq_take, show name.length - 1 = 0 from by omega]
          rfl
        · exact h
      have hparlen : name.dropLast.length = k - 1 := by
        rw [List.length_dropLast, hk]
      have hfresh4 : ∀ p ∈ getFamily name.dropLast,
          dictGet (dictSet s.modules name Entry.marker) p = none := by
        intro p hp
        rw [mem_getFamily] at hp
        obtain ⟨i, hi, rfl⟩ := hp
        rw [hparlen] at hi
        have htk : name.dropLast.take (i + 1) = name.take (i + 1) :=
          dropLast_take name (i + 1) (by omega)
        have hpne : name.dropLast.take (i + 1) ≠ name := by
          intro hc
          have := congrArg List.length hc
          rw [htk, List.length_take] at this
          rw [hk] at this
          simp at this
          omega
        rw [dictGet_dictSet, if_neg hpne, htk]
        exact hfresh _ (getFamily_take (by omega))
      have hchild4 : dictGet (dictSet s.modules name Entry.marker)
          (name.dropLast ++ [name.getLastD ""]) = some Entry.marker := by
        rw [dropLast_concat_getLastD name "" hne, dictGet_dictSet, if_pos rfl]
      obtain ⟨s5, hreg5, hrec5, hent5, hanc5, hframe5, hheapf5, htr5⟩ :=
        ih (k - 1) (by omega) name.dropLast hparlen (dropLast_ne_nil hk2)
          (fun seg hs => hsegs seg (by rw [List.dropLast_eq_take] at hs; exact List.take_subset _ _ hs))
          (some [name.getLastD ""]) v
          { modules := dictSet s.modules name Entry.marker, heap := s.heap ++ [recI], trace := s.trace }
          (f - 2) (by omega) hfresh4
          (Or.inr ⟨name.getLastD "", rfl, hsegs _ (getLastD_mem name "" hne), hchild4⟩)
      rw [show f - 2 + 5 = f + 3 from by omega] at hreg5
      have hs4len : (({ modules := dictSet s.modules name Entry.marker, heap := s.heap ++ [recI], trace := s.trace } : St)).heap.length = s.heap.length + 1 := by
        simp
      rw [hs4len] at hreg5 hrec5 hent5
      refine ⟨{ s5 with modules := dictSet s5.modules name (Entry.lazy s.heap.length) }, ?_, ?_, ?_, ?_, ?_, ?_, ?_⟩
      · rw [registerF, hnone, hinit, if_neg hk1, hreg5]
      · show s5.heap[s.heap.length]? = _
        rw [hheapf5 s.heap.length (by rw [hs4len]; omega)]
        show (s.heap ++ [recI])[s.heap.length]? = _
        rw [List.getElem?_concat_length, hrecI]
      · show dictGet (dictSet s5.modules name (Entry.lazy s.heap.length)) name = _
        rw [dictGet_dictSet, if_pos rfl]
      · intro i hi
        rw [hk] at hi
        by_cases hilt : i + 1 < k - 1
        · obtain ⟨r, lmi, hent, hrec, hnm, hmod, hmem⟩ := hanc5 i (by rw [hparlen]; omega)
          have htk : name.dropLast.take (i + 1) = name.take (i + 1) :=
            dropLast_take name (i + 1) (by omega)
          have hgd : name.dropLast.getD (i + 1) "" = name.getD (i + 1) "" :=
            dropLast_getD name (i + 1) "" (by omega)
          have hpne : name.take (i + 1) ≠ name := by
            intro hc
            have := congrArg List.length hc
            rw [List.length_take] at this
            rw [hk] at this
            simp at this
            omega
          refine ⟨r, lmi, ?_, hrec, ?_, hmod, ?_⟩
          · show dictGet (dictSet s5.modules name (Entry.lazy s.heap.length)) _ = _
            rw [dictGet_dictSet, if_neg hpne, ← htk]
            exact hent
          · rw [hnm, htk]
          · rw [← hgd]
            exact hmem
        · have hieq : i + 1 = k - 1 := by omega
          have htk : name.take (i + 1) = name.dropLast := by
            rw [List.dropLast_eq_take, hk, hieq]
          have hpne : name.take (i + 1) ≠ name := by
            intro hc
            have := congrArg List.length hc
            rw [List.length_take] at this
            rw [hk] at this
            simp at this
            omega
          refine ⟨s.heap.length + 1, _, ?_, hrec5, htk.symm, rfl, ?_⟩
          · show dictGet (dictSet s5.modules name (Entry.lazy s.heap.length)) _ = _
            rw [dictGet_dictSet, if_neg hpne, htk]
            exact hent5
          · show name.getD (i + 1) "" ∈ ({ name := name.dropLast, ignored_attrs := (some [name.getLastD ""]).getD [], verbose := v, module := Entry.marker, logger := decide (1 ≤ v) } : LazyModule).ignored_attrs
            have : name.getD (i + 1) "" = name.getLastD "" := by
              rw [hieq, ← hk]
              exact getD_last_eq_getLastD name ""
            rw [this]
            simp
      · intro p hp
        have hpn : p ≠ name := fun hc => hp (by rw [hc]; exact self_mem_getFamily hne)
        have hppar : p ∉ getFamily name.dropLast := by
          intro hc
          apply hp
          rw [mem_getFamily] at hc
          obtain ⟨i, hi, rfl⟩ := hc
          rw [hparlen] at hi
          rw [dropLast_take name (i + 1) (by omega)]
          exact getFamily_take (by omega)
        show dictGet (dictSet s5.modules name (Entry.lazy s.heap.length)) p = _
        rw [dictGet_dictSet, if_neg hpn, hframe5 p hppar]
        show dictGet (dictSet s.modules name Entry.marker) p = _
        rw [dictGet_dictSet, if_neg hpn]
      · intro r hr
        show s5.heap[r]? = _
        rw [hheapf5 r (by rw [hs4len]; omega)]
        show (s.heap ++ [recI])[r]? = _
        exact List.getElem?_append_left hr
      · show s5.trace = s.trace
        rw [htr5]

/-- C3: for a dotted name `N` none of whose prefixes has a Registry
entry, `register(N)` succeeds, creates a fresh Placeholder for `N`
(marker module, the supplied verbosity, empty ignore set), and
recursively registers every strict ancestor of `N` as a Placeholder
with the immediate child's leaf segment in that ancestor's ignore set
— and the Loader trace is unchanged, so no Loader invocation happens
during registration. -/
theorem c3_register_chain (name : ModName) (v : Nat) (s : St) (f : Nat)
    (hne : name ≠ [])
    (hsegs : ∀ seg ∈ name, splitSegs seg = [seg])
    (hfuel : 2 * name.length ≤ f + 1)
    (hfresh : ∀ p ∈ getFamily name, dictGet s.modules p = none) :
    ∃ (s' : St) (r : Nat) (lm : LazyModule),
      registerF (f + 5) name none v s = some (s', Entry.lazy r) ∧
      s'.heap[r]? = some lm ∧ lm.name = name ∧ lm.module = Entry.marker ∧
      lm.ignored_attrs = [] ∧ lm.verbose = v ∧
      dictGet s'.modules name = some (Entry.lazy r) ∧
      (∀ i, i + 1 < name.length → ∃ (ra : Nat) (lma : LazyModule),
        dictGet s'.modules (name.take (i + 1)) = some (Entry.lazy ra) ∧
        s'.heap[ra]? = some lma ∧ lma.name = name.take (i + 1) ∧
        lma.module = Entry.marker ∧ name.getD (i + 1) "" ∈ lma.ignored_attrs) ∧
      s'.trace = s.trace := by
  obtain ⟨s', hreg, hrec, hent, hanc, _, _, htr⟩ :=
    regChain name.length name rfl hne hsegs none v s f hfuel hfresh (Or.inl rfl)
  exact ⟨s', s.heap.length, _, hreg, hrec, rfl, rfl, rfl, rfl, hent, hanc, htr⟩

/-- Witness for C3 at a concrete input: registering `a.b` in the empty
registry creates Placeholders for `a.b` and for its ancestor `a`, with
`b` in the ancestor's ignore set and an empty trace. -/
theorem c3_register_chain_witness :
    (["a", "b"] : ModName) ≠ [] ∧
    ∃ (s' : St) (r : Nat) (lm : LazyModule),
      registerF 8 ["a", "b"] none 0 emptySt = some (s', Entry.lazy r) ∧
      s'.heap[r]? = some lm ∧ lm.name = ["a", "b"] ∧ lm.module = Entry.marker ∧
      lm.ignored_attrs = [] ∧ lm.verbose = 0 ∧
      dictGet s'.modules ["a", "b"] = some (Entry.lazy r) ∧
      (∀ i, i + 1 < (["a", "b"] : ModName).length → ∃ (ra : Nat) (lma : LazyModule),
        dictGet s'.modules ((["a", "b"] : ModName).take (i + 1)) = some (Entry.lazy ra) ∧
        s'.heap[ra]? = some lma ∧ lma.name = (["a", "b"] : ModName).take (i + 1) ∧
        lma.module = Entry.marker ∧ (["a", "b"] : ModName).getD (i + 1) "" ∈ lma.ignored_attrs) ∧
      s'.trace = emptySt.trace :=
  ⟨by decide, c3_register_chain ["a", "b"] 0 emptySt 3 (by decide) (by decide) (by decide)
    (by decide)⟩
